import Mathlib

/-!
# Verification of diskspace2slack against its specification

This file shallowly embeds the single Go source file `diskspace2slack.go`
(package `main`) and settles the frozen claims C1..C10 about it.

Modelling conventions:

* Go `uint64` values are modelled as `ℕ` with an explicit `% 2^64` at the
  operations that can overflow (the `Blocks * Bsize` / `Bavail * Bsize`
  products and the `All - Free` subtraction in `StatDisk`).
* Go `float32` arithmetic (used by `ByteSize` and by the free-percentage
  computation in `StatDisk`) is modelled exactly: a nonnegative binary32
  value is an arbitrary-precision dyadic rational `m * 2^e` (`Dyadic`), and
  every operation rounds its exact mathematical result to 24 significant
  bits with round-to-nearest, ties-to-even — precisely IEEE-754 binary32
  semantics, except that the exponent range is unbounded.  All values that
  arise from `uint64` inputs under the operations used by this program lie
  well inside the binary32 normal range, so no overflow/underflow behaviour
  is lost by the unbounded-exponent model.
* The one place the source can produce a NaN — `float32(Free)/float32(All)`
  when `All = 0`, whose `uint64` conversion Go leaves implementation
  defined — is documented at `statDiskCore`; no claim relies on the
  numeric value modelled there.
* Fallible operations (`syscall.Statfs`, `os.Hostname`, `strconv.ParseUint`)
  are modelled by `Option`/`Except` parameters and results; a Go `panic`
  in `main` is modelled as an error result of the orchestrator function.
-/

/-! ## Exact binary32 arithmetic on nonnegative dyadic rationals -/

/-- A nonnegative dyadic rational `m * 2^e`.  Binary32 results are
represented with `m` the 24-bit significand (except the value zero). -/
structure Dyadic where
  m : ℕ
  e : ℤ
  deriving DecidableEq

/-- The exact rational value of a dyadic. Used only in proofs. -/
def Dyadic.toRat (d : Dyadic) : ℚ := (d.m : ℚ) * (2 : ℚ) ^ d.e

/-- Kernel-computable base-2 logarithm via an explicit fuel argument
(`Nat.log` does not reduce in the kernel). -/
def log2fuel : ℕ → ℕ → ℕ
  | 0, _ => 0
  | fuel + 1, n => if n < 2 then 0 else log2fuel fuel (n / 2) + 1

/-- `natLog2 n` is `⌊log₂ n⌋` for `n ≥ 1` (and `0` at `0`). -/
def natLog2 (n : ℕ) : ℕ := log2fuel n n

/-- Round-to-nearest, ties-to-even of the fraction `a / b` to an integer. -/
def rne (a b : ℕ) : ℕ :=
  let q := a / b
  let r := a % b
  if 2 * r < b then q
  else if b < 2 * r then q + 1
  else if q % 2 = 0 then q else q + 1

/-- `2 ^ e` as a fraction `(p, q)` of naturals with `p/q = 2^e`. -/
def powShift (e : ℤ) : ℕ × ℕ :=
  match e with
  | .ofNat k => (2 ^ k, 1)
  | .negSucc k => (1, 2 ^ (k + 1))

/-- Decides `2 ^ e ≤ a / b` by cross-multiplication. -/
def fracLe2pow (a b : ℕ) (e : ℤ) : Bool :=
  match e with
  | .ofNat k => b * 2 ^ k ≤ a
  | .negSucc k => b ≤ a * 2 ^ (k + 1)

/-- `⌊log₂ (a/b)⌋` for `a, b ≥ 1`, as an integer. -/
def floorLog2Frac (a b : ℕ) : ℤ :=
  let e0 : ℤ := (natLog2 a : ℤ) - (natLog2 b : ℤ)
  if fracLe2pow a b e0 then e0 else e0 - 1

/-- Rounds the positive fraction `a/b` to 24 significant bits
(round-to-nearest, ties-to-even), then scales by `2 ^ shift` (exact).
This is the single primitive underlying every binary32 operation used by
the program. -/
def roundFracAt (a b : ℕ) (shift : ℤ) : Dyadic :=
  let e := floorLog2Frac a b
  let g := e - 23
  let pq := powShift g
  ⟨rne (a * pq.2) (b * pq.1), g + shift⟩

/-- Go conversion `float32(n)` of a `uint64` value: round to 24 bits. -/
def f32ofNat (n : ℕ) : Dyadic :=
  if n = 0 then ⟨0, 0⟩ else roundFracAt n 1 0

/-- Go binary32 division (correctly rounded).  Callers of this model never
divide by zero except for the documented NaN case in `statDiskCore`. -/
def f32div (x y : Dyadic) : Dyadic :=
  if x.m = 0 then ⟨0, 0⟩ else roundFracAt x.m y.m (x.e - y.e)

/-- Go binary32 multiplication (correctly rounded). -/
def f32mul (x y : Dyadic) : Dyadic :=
  if x.m = 0 ∨ y.m = 0 then ⟨0, 0⟩ else roundFracAt (x.m * y.m) 1 (x.e + y.e)

/-- Go conversion `uint64(f)` of a nonnegative binary32 value: truncation
toward zero, i.e. the floor of the dyadic value. -/
def dyadicFloor (d : Dyadic) : ℕ :=
  match d.e with
  | .ofNat k => d.m * 2 ^ k
  | .negSucc k => d.m / 2 ^ (k + 1)

/-! ## The byte-size formatter (`ByteSize`, lines 16–51 of the source) -/

def BYTE : ℕ := 1
def KILOBYTE : ℕ := 1024 * BYTE
def MEGABYTE : ℕ := 1024 * KILOBYTE
def GIGABYTE : ℕ := 1024 * MEGABYTE
def TERABYTE : ℕ := 1024 * GIGABYTE

/-- The integer `n` such that Go `fmt.Sprintf("%.1f", v)` prints
`n/10 "." n%10`: the exact binary32 value rounded to the nearest tenth
(ties-to-even, as Go's `strconv` correctly rounds). -/
def renderedTenths (d : Dyadic) : ℕ :=
  match d.e with
  | .ofNat k => d.m * 2 ^ k * 10
  | .negSucc k => rne (d.m * 10) (2 ^ (k + 1))

/-- Go `fmt.Sprintf("%.1f", v)` for a nonnegative binary32 value. -/
def sprintf1f (d : Dyadic) : String :=
  Nat.repr (renderedTenths d / 10) ++ "." ++ Nat.repr (renderedTenths d % 10)

/-- Go `strings.TrimSuffix(s, ".0")`: if the string ends with `".0"`, drop
those two (ASCII) characters, else return it unchanged. -/
def trimSuffixDot0 (s : String) : String :=
  if s.data.reverse.take 2 = ['0', '.'] then String.mk (s.data.take (s.data.length - 2))
  else s

/-- `ByteSize` (source lines 26–51): `value := float32(bytes)` is divided by
the matching unit constant in binary32 (the constants are powers of two, so
the division result is still correctly rounded by `f32div`), rendered with
`%.1f`, has a trailing `".0"` trimmed, and gets the unit suffix.  The
`switch` is modelled by the same ordered comparisons on the `uint64`. -/
def ByteSize (bytes : ℕ) : String :=
  let value := f32ofNat bytes
  if TERABYTE ≤ bytes then trimSuffixDot0 (sprintf1f (f32div value (f32ofNat TERABYTE))) ++ "TB"
  else if GIGABYTE ≤ bytes then trimSuffixDot0 (sprintf1f (f32div value (f32ofNat GIGABYTE))) ++ "GB"
  else if MEGABYTE ≤ bytes then trimSuffixDot0 (sprintf1f (f32div value (f32ofNat MEGABYTE))) ++ "MB"
  else if KILOBYTE ≤ bytes then trimSuffixDot0 (sprintf1f (f32div value (f32ofNat KILOBYTE))) ++ "KB"
  else if BYTE ≤ bytes then trimSuffixDot0 (sprintf1f value) ++ "B"
  else "0"

/-! ## `DiskState` and `StatDisk` (source lines 53–84) -/

def U64 : ℕ := 2 ^ 64

structure DiskState where
  Host : String
  Name : String
  All : ℕ
  Used : ℕ
  Free : ℕ
  FreePercentage : ℕ
  deriving DecidableEq

/-- The raw numbers a successful `syscall.Statfs` reports.  `Bsize` is an
`int64` in Go that the source immediately casts with `uint64(fs.Bsize)`;
the field here is that cast result. -/
structure StatfsResult where
  Blocks : ℕ
  Bsize : ℕ
  Bavail : ℕ
  deriving DecidableEq

/-- `uint64(float32(free) / float32(all) * 100)` — source line 73.
For `all = 0` the Go expression is `uint64(NaN)`, which Go leaves
implementation defined; this model yields `0` there, and no claim below
depends on the modelled value in that case. -/
def goFreePercentage (free all : ℕ) : ℕ :=
  dyadicFloor (f32mul (f32div (f32ofNat free) (f32ofNat all)) (f32ofNat 100))

/-- The `DiskState` built on the success path of `StatDisk`
(source lines 70–83): `All = fs.Blocks * uint64(fs.Bsize)`,
`Free = fs.Bavail * uint64(fs.Bsize)` (both `uint64` products, hence
`% 2^64`), `FreePercentage` per `goFreePercentage`, and
`Used = All - Free` in `uint64` arithmetic. -/
def statDiskCore (path host : String) (fs : StatfsResult) : DiskState :=
  let all := fs.Blocks * fs.Bsize % U64
  let free := fs.Bavail * fs.Bsize % U64
  let fp := goFreePercentage free all
  let used := (all + (U64 - free)) % U64
  ⟨host, path, all, used, free, fp⟩

/-- `StatDisk` (source lines 64–84).  The `syscall.Statfs` outcome is the
`statfs` parameter (`none` = the syscall failed); the `os.Hostname` outcome
is `hostRes`, with the source's `"Unknown"` fallback. -/
def StatDisk (path : String) (hostRes : Option String) (statfs : Option StatfsResult) :
    Except String DiskState :=
  match statfs with
  | none => .error ("Couldn't stat path " ++ path)
  | some fs => .ok (statDiskCore path (hostRes.getD "Unknown") fs)

/-! ## The alert message (`DiskUsageStatsAsString`, source lines 87–95) -/

/-- Direct transcription of the five `fmt.Sprintf` pieces and their
concatenation; `%s` on a string is the identity, `%d` on a `uint64` prints
decimal digits (`Nat.repr`), and `%%` prints `%`. -/
def DiskUsageStatsAsString (disk : DiskState) (diskName : String) (threshold : ℕ)
    (host : String) : String :=
  let statHeader := "*WARNING!*\nLOW DISK SPACE ON `" ++ diskName ++ "` \nMACHINE `" ++ host ++ "`\n"
  let statAll := "TOTAL: " ++ ByteSize disk.All ++ "\n"
  let statFree := "FREE: " ++ ByteSize disk.Free ++ "\n"
  let statUsed := "USED: " ++ ByteSize disk.Used ++ "\n"
  let statFreePerc := "Free space in percentage: " ++ Nat.repr disk.FreePercentage ++ "%\n"
  let statFooter := "Using threshold " ++ Nat.repr threshold ++ "%"
  statHeader ++ statAll ++ statFree ++ statUsed ++ statFreePerc ++ statFooter

/-! ## Threshold parsing and the orchestrator (`MapStrToInt`, `main`) -/

/-- Go `strconv.ParseUint(v, 10, 64)`: succeeds exactly on a nonempty
all-digit string whose value fits in 64 bits (no sign, base 10). -/
def parseUint64 (s : String) : Option ℕ :=
  if s.data ≠ [] ∧ s.data.all (fun c => c.isDigit) then
    let v := s.data.foldl (fun a c => a * 10 + (c.toNat - 48)) 0
    if v < U64 then some v else none
  else none

/-- `MapStrToInt` (source lines 111–121): parses each string in order and
panics at the first failure; the panic is modelled as `.error s` carrying
the offending string. -/
def MapStrToInt : List String → Except String (List ℕ)
  | [] => .ok []
  | s :: rest =>
    match parseUint64 s with
    | none => .error s
    | some v => (MapStrToInt rest).map (fun l => v :: l)

/-- A Go map insert `m[k] = v` on an association-list model of
`map[string]uint64`: overwrite if the key is present, else add the key. -/
def mapInsert : List (String × ℕ) → String → ℕ → List (String × ℕ)
  | [], k, v => [(k, v)]
  | kv :: rest, k, v => if kv.1 == k then (k, v) :: rest else kv :: mapInsert rest k v

/-- The `diskData` map built by `main` (source lines 141–146):
`for i, v := range diskNames { diskData[v] = thresholdValues[i] }`. -/
def buildDiskData (pairs : List (String × ℕ)) : List (String × ℕ) :=
  pairs.foldl (fun m kv => mapInsert m kv.1 kv.2) []

/-- Lookup in the association-list model of the Go map. -/
def mapLookup (m : List (String × ℕ)) (k : String) : Option ℕ :=
  (m.find? (fun kv => kv.1 == k)).map (fun kv => kv.2)

/-- The breach test of source line 155: `disk.FreePercentage < thresholdValue`. -/
def breached (disk : DiskState) (threshold : ℕ) : Bool :=
  decide (disk.FreePercentage < threshold)

/-- The ways `main` can panic. -/
inductive MainError where
  | parseFailure (s : String)
  | countMismatch
  | statFailure (path : String)
  deriving DecidableEq

/-- What a run of `main` did: which paths it statted (in order), which
dispatch goroutines it launched (disk state and threshold), and whether it
panicked. -/
structure RunOutcome where
  statted : List String
  dispatches : List (DiskState × ℕ)
  result : Option MainError
  deriving DecidableEq

/-- The per-entry loop of `main` (source lines 150–160): stat the mount
(recording the query), panic on a stat failure, and launch a dispatch for a
breaching mount. -/
def mainLoop (hostRes : Option String) (statfs : String → Option StatfsResult) :
    List (String × ℕ) → RunOutcome
  | [] => ⟨[], [], none⟩
  | (p, t) :: rest =>
    match StatDisk p hostRes (statfs p) with
    | .error _ => ⟨[p], [], some (.statFailure p)⟩
    | .ok disk =>
      let r := mainLoop hostRes statfs rest
      if breached disk t then ⟨p :: r.statted, (disk, t) :: r.dispatches, r.result⟩
      else ⟨p :: r.statted, r.dispatches, r.result⟩

/-- `main` (source lines 123–163) after flag parsing: `diskNames` and
`thresholdValuesStr` are the whitespace-split flag values.  Order of
events as in the source: parse all thresholds (line 134), then compare the
counts (line 137), then build `diskData` and run the stat/dispatch loop.
Go iterates `diskData` in unspecified order; the model iterates it in the
deterministic order of the association list, which no claim below is
sensitive to. -/
def runMain (diskNames : List String) (thresholdValuesStr : List String)
    (hostRes : Option String) (statfs : String → Option StatfsResult) : RunOutcome :=
  match MapStrToInt thresholdValuesStr with
  | .error s => ⟨[], [], some (.parseFailure s)⟩
  | .ok thresholdValues =>
    if diskNames.length ≠ thresholdValues.length then ⟨[], [], some .countMismatch⟩
    else mainLoop hostRes statfs (buildDiskData (diskNames.zip thresholdValues))

/-! ## Concurrency model for the dispatch phase (claim C9)

The driver loop (source lines 149–162) together with `sync.WaitGroup` and
the deferred `wg.Done()` of `SendDiskSpaceReport` (source lines 98–108) is
modelled as a small-step relation: the sequential driver consumes its map
entries, incrementing the counter (`wg.Add(1)`) as it launches each
dispatch goroutine; concurrently, any launched-but-unfinished goroutine may
finish (its deferred `wg.Done()` decrements the counter — it runs whether
the send succeeded or panicked); `wg.Wait()` lets the driver return only
when the counter is zero.  Stat calls are taken to succeed (`statfs` total),
matching the claim's premise of a run that reaches the barrier. -/

structure OrchState where
  pending : List (String × ℕ)
  launched : ℕ
  completed : ℕ
  wgCounter : ℕ
  returned : Bool
  deriving DecidableEq

def orchInit (mounts : List (String × ℕ)) : OrchState := ⟨mounts, 0, 0, 0, false⟩

inductive OrchStep (host : String) (statfs : String → StatfsResult) :
    OrchState → OrchState → Prop
  | skip (p : String) (t : ℕ) (rest : List (String × ℕ)) (l c w : ℕ)
      (hnb : breached (statDiskCore p host (statfs p)) t = false) :
      OrchStep host statfs ⟨(p, t) :: rest, l, c, w, false⟩ ⟨rest, l, c, w, false⟩
  | launch (p : String) (t : ℕ) (rest : List (String × ℕ)) (l c w : ℕ)
      (hb : breached (statDiskCore p host (statfs p)) t = true) :
      OrchStep host statfs ⟨(p, t) :: rest, l, c, w, false⟩ ⟨rest, l + 1, c, w + 1, false⟩
  | complete (pend : List (String × ℕ)) (l c w : ℕ) (r : Bool) (hc : c < l) :
      OrchStep host statfs ⟨pend, l, c, w + 1, r⟩ ⟨pend, l, c + 1, w, r⟩
  | finish (l c : ℕ) :
      OrchStep host statfs ⟨[], l, c, 0, false⟩ ⟨[], l, c, 0, true⟩

/-- The number of mounts in `mounts` that breach their threshold. -/
def countBreaches (host : String) (statfs : String → StatfsResult)
    (mounts : List (String × ℕ)) : ℕ :=
  (mounts.filter (fun pt => breached (statDiskCore pt.1 host (statfs pt.1)) pt.2)).length

/-! ## Definitions written from the claims' words, for comparison -/

/-- The alert message exactly as claim C2 and §6 of the spec state it: note
there is no space between the closing backtick around the mount name and
the newline.  Written from the claim's template, to be compared with
`DiskUsageStatsAsString`. -/
def claimedMessageTemplate (disk : DiskState) (threshold : ℕ) : String :=
  "*WARNING!*\nLOW DISK SPACE ON `" ++ disk.Name ++ "`\nMACHINE `" ++ disk.Host ++
    "`\nTOTAL: " ++ ByteSize disk.All ++ "\nFREE: " ++ ByteSize disk.Free ++ "\nUSED: " ++
    ByteSize disk.Used ++ "\nFree space in percentage: " ++ Nat.repr disk.FreePercentage ++
    "%\nUsing threshold " ++ Nat.repr threshold ++ "%"

/-- The template of claim C2 amended in exactly one place: the source's
header line is `LOW DISK SPACE ON ` + backtick + name + backtick + space +
newline, so a space follows the mount name's closing backtick. -/
def amendedMessageTemplate (disk : DiskState) (threshold : ℕ) : String :=
  "*WARNING!*\nLOW DISK SPACE ON `" ++ disk.Name ++ "` \nMACHINE `" ++ disk.Host ++
    "`\nTOTAL: " ++ ByteSize disk.All ++ "\nFREE: " ++ ByteSize disk.Free ++ "\nUSED: " ++
    ByteSize disk.Used ++ "\nFree space in percentage: " ++ Nat.repr disk.FreePercentage ++
    "%\nUsing threshold " ++ Nat.repr threshold ++ "%"

/-- Rendering required by claim C3's words: the EXACT quotient
`bytes/unitSize`, at one decimal digit of precision (round to nearest),
with a trailing `".0"` stripped.  Written from the claim, to be compared
with what `ByteSize` actually renders. -/
def renderExactTenths (bytes unit : ℕ) : String :=
  let n := rne (bytes * 10) unit
  trimSuffixDot0 (Nat.repr (n / 10) ++ "." ++ Nat.repr (n % 10))

/-- The unit ladder of `ByteSize`, largest first. -/
def unitTable : List (ℕ × String) :=
  [(TERABYTE, "TB"), (GIGABYTE, "GB"), (MEGABYTE, "MB"), (KILOBYTE, "KB"), (BYTE, "B")]

/-- Invariant of the orchestration step relation: the `WaitGroup` counter
is exactly launches minus completions, launches account exactly for the
breaching mounts already consumed, and a returned driver has consumed all
mounts with the counter at zero. -/
def orchInv (host : String) (statfs : String → StatfsResult)
    (mounts : List (String × ℕ)) (s : OrchState) : Prop :=
  s.wgCounter + s.completed = s.launched ∧
  s.launched + countBreaches host statfs s.pending = countBreaches host statfs mounts ∧
  (s.returned = true → s.pending = [] ∧ s.wgCounter = 0)

/-! ## Claim C2 — the alert message template -/

/-- C2 counterexample: at a concrete `DiskState` the message body the
source builds (called as on source line 103, with `disk.Name` and
`disk.Host`) differs from the claim's template — the source emits a space
after the mount name's closing backtick that the claimed template lacks. -/
theorem C2_message_differs_from_claimed_template :
    DiskUsageStatsAsString ⟨"myhost", "/", 0, 0, 0, 5⟩ "/" 10 "myhost" ≠
      claimedMessageTemplate ⟨"myhost", "/", 0, 0, 0, 5⟩ 10 := by decide

/-- C2 (amended): the message body equals, character for character, the
claimed template with a single space inserted after the mount name's
closing backtick, the byte fields rendered via `ByteSize` and the
percentages in decimal. -/
theorem C2_message_equals_amended_template (disk : DiskState) (threshold : ℕ) :
    DiskUsageStatsAsString disk disk.Name threshold disk.Host =
      amendedMessageTemplate disk threshold := by
  unfold DiskUsageStatsAsString amendedMessageTemplate
  apply String.ext
  simp only [String.data_append, List.append_assoc, List.cons_append, List.nil_append]

/-! ## Claim C4 — zero-size mounts are not rejected by the code -/

/-- C4: the source never checks `All = 0`.  A successful `statfs` that
reports zero blocks (as `/proc`-like pseudo-filesystems do) makes
`StatDisk` return a `DiskState` — not a `StatError` — whose
`FreePercentage` was computed from a zero total (in Go, `uint64` of a NaN).
This contradicts the claim (and the spec's stated invariant), which is
taken as the intent: the code is missing the check. -/
theorem C4_zero_total_still_returns_ok :
    StatDisk "/proc" (some "myhost") (some ⟨0, 4096, 0⟩) =
      .ok (statDiskCore "/proc" "myhost" ⟨0, 4096, 0⟩) ∧
    (statDiskCore "/proc" "myhost" ⟨0, 4096, 0⟩).All = 0 := ⟨rfl, by decide⟩

/-! ## Claim C6 — the breach comparison is strict -/

/-- C6: the dispatch guard of source line 155 reports a breach exactly when
`FreePercentage < threshold`; equality is not a breach. -/
theorem C6_breached_iff_lt (disk : DiskState) (threshold : ℕ) :
    (breached disk threshold = true ↔ disk.FreePercentage < threshold) ∧
    (disk.FreePercentage = threshold → breached disk threshold = false) := by
  refine ⟨by simp [breached], fun h => by simp [breached, h]⟩

/-- Witness for C6 at concrete inputs. -/
theorem C6_breached_iff_lt_witness :
    breached ⟨"h", "/", 0, 0, 0, 5⟩ 10 = true ∧ breached ⟨"h", "/", 0, 0, 0, 10⟩ 10 = false :=
  ⟨(C6_breached_iff_lt ⟨"h", "/", 0, 0, 0, 5⟩ 10).1.mpr (by decide),
   (C6_breached_iff_lt ⟨"h", "/", 0, 0, 0, 10⟩ 10).2 rfl⟩

/-! ## Claim C7 — count mismatch aborts before any inspection -/

/-- C7: when every threshold parses but the path count differs from the
threshold count, `main` panics with the count-mismatch configuration error
having statted no path and launched no dispatch. -/
theorem C7_count_mismatch_aborts_early (diskNames tstrs : List String) (ts : List ℕ)
    (hostRes : Option String) (statfs : String → Option StatfsResult)
    (hparse : MapStrToInt tstrs = .ok ts) (hlen : diskNames.length ≠ ts.length) :
    runMain diskNames tstrs hostRes statfs = ⟨[], [], some .countMismatch⟩ := by
  unfold runMain
  rw [hparse]
  simp [hlen]

/-- Witness for C7: two paths, one threshold. -/
theorem C7_count_mismatch_aborts_early_witness :
    runMain ["/", "/tmp"] ["10"] none (fun _ => none) = ⟨[], [], some .countMismatch⟩ :=
  C7_count_mismatch_aborts_early ["/", "/tmp"] ["10"] [10] none (fun _ => none) rfl (by decide)

/-! ## Claim C10 — thresholds are parsed before the count check -/

/-- If some string in the list fails to parse, `MapStrToInt` panics with
the first such string. -/
theorem MapStrToInt_error_of_bad (tstrs : List String)
    (h : ∃ s ∈ tstrs, parseUint64 s = none) :
    ∃ s, parseUint64 s = none ∧ MapStrToInt tstrs = .error s := by
  induction tstrs with
  | nil => simp at h
  | cons hd tl ih =>
    by_cases hhd : parseUint64 hd = none
    · exact ⟨hd, hhd, by simp [MapStrToInt, hhd]⟩
    · obtain ⟨s, hs, hbad⟩ := h
      rw [List.mem_cons] at hs
      rcases hs with rfl | hs
      · exact absurd hbad hhd
      · obtain ⟨v, hv⟩ := Option.ne_none_iff_exists.mp hhd
        obtain ⟨s2, h1, h2⟩ := ih ⟨s, hs, hbad⟩
        refine ⟨s2, h1, ?_⟩
        simp [MapStrToInt, ← hv, h2, Except.map]

/-- C10: `main` calls `MapStrToInt` (source line 134) before the length
comparison (line 137), so an unparsable threshold always surfaces as the
parse panic — never as the count-mismatch error — even when the counts also
differ, and nothing is statted or dispatched. -/
theorem C10_parse_error_precedes_count_check (diskNames tstrs : List String)
    (hostRes : Option String) (statfs : String → Option StatfsResult)
    (h : ∃ s ∈ tstrs, parseUint64 s = none) :
    ∃ s, parseUint64 s = none ∧
      runMain diskNames tstrs hostRes statfs = ⟨[], [], some (.parseFailure s)⟩ := by
  obtain ⟨s, h1, h2⟩ := MapStrToInt_error_of_bad tstrs h
  exact ⟨s, h1, by unfold runMain; rw [h2]⟩

/-- Witness for C10: counts mismatch too (2 paths, 1 threshold), yet the
reported failure is the parse error. -/
theorem C10_parse_error_precedes_count_check_witness :
    ∃ s, parseUint64 s = none ∧
      runMain ["/", "/tmp"] ["abc"] none (fun _ => none) = ⟨[], [], some (.parseFailure s)⟩ :=
  C10_parse_error_precedes_count_check ["/", "/tmp"] ["abc"] none (fun _ => none)
    ⟨"abc", by simp, by decide⟩

/-! ## Claim C1 — counterexample to the exact-floor claim -/

/-- C1 counterexample: a successful inspection (total `16777215` bytes,
free `11744050`) whose source-computed `FreePercentage` is `70`, while the
exact `⌊free * 100 / total⌋` is `69`: the `float32` arithmetic of source
line 73 rounds the ratio up across the integer boundary before truncation. -/
theorem C1_float32_differs_from_exact_floor :
    StatDisk "/" (some "myhost") (some ⟨16777215, 1, 11744050⟩) =
      .ok (statDiskCore "/" "myhost" ⟨16777215, 1, 11744050⟩) ∧
    0 < (statDiskCore "/" "myhost" ⟨16777215, 1, 11744050⟩).All ∧
    (statDiskCore "/" "myhost" ⟨16777215, 1, 11744050⟩).FreePercentage = 70 ∧
    (statDiskCore "/" "myhost" ⟨16777215, 1, 11744050⟩).Free * 100 /
        (statDiskCore "/" "myhost" ⟨16777215, 1, 11744050⟩).All = 69 := by
  exact ⟨rfl, by decide, by decide, by decide⟩

/-! ## Claim C3 — counterexample to the exact-quotient rendering -/

/-- C3 counterexample: at `bytes = 2^63 + 2^39 - 1` the selected unit is
TB, and rendering the exact quotient `bytes/TERABYTE` at one decimal digit
gives `"8388608.5TB"`, but `ByteSize` renders the `float32` approximation
of `bytes` and prints `"8388608TB"`. -/
theorem C3_float32_quotient_differs_from_exact :
    TERABYTE ≤ 9223372586610589695 ∧
    ByteSize 9223372586610589695 = "8388608TB" ∧
    renderExactTenths 9223372586610589695 TERABYTE ++ "TB" = "8388608.5TB" ∧
    ByteSize 9223372586610589695 ≠ renderExactTenths 9223372586610589695 TERABYTE ++ "TB" := by
  refine ⟨by decide, by decide, by decide, by decide⟩

/-! ## Claim C8 — duplicate paths collapse, last occurrence wins -/

theorem mapLookup_mapInsert_self (m : List (String × ℕ)) (k : String) (v : ℕ) :
    mapLookup (mapInsert m k v) k = some v := by
  induction m with
  | nil => simp [mapInsert, mapLookup]
  | cons kv rest ih =>
    by_cases h : kv.1 == k
    · simp [mapInsert, h, mapLookup]
    · simp only [mapInsert, h, if_neg, Bool.false_eq_true, not_false_eq_true, ite_false]
      simpa [mapLookup, List.find?_cons, h] using ih

theorem mapLookup_mapInsert_ne (m : List (String × ℕ)) (k q : String) (v : ℕ)
    (hne : q ≠ k) :
    mapLookup (mapInsert m k v) q = mapLookup m q := by
  have hkq : (k == q) = false := by simp [Ne.symm hne]
  induction m with
  | nil => simp [mapInsert, mapLookup, hkq]
  | cons kv rest ih =>
    by_cases h : kv.1 == k
    · have h2 : kv.1 = k := by simpa using h
      simp [mapInsert, h, mapLookup, List.find?_cons, hkq, h2]
    · by_cases hq : kv.1 == q
      · simp [mapInsert, h, mapLookup, List.find?_cons, hq]
      · simpa [mapInsert, h, mapLookup, List.find?_cons, hq] using ih

theorem mapInsert_keys (m : List (String × ℕ)) (k : String) (v : ℕ) :
    (mapInsert m k v).map Prod.fst =
      if k ∈ m.map Prod.fst then m.map Prod.fst else m.map Prod.fst ++ [k] := by
  induction m with
  | nil => simp [mapInsert]
  | cons kv rest ih =>
    by_cases h : kv.1 == k
    · have h2 : kv.1 = k := by simpa using h
      simp [mapInsert, h, h2]
    · have h2 : kv.1 ≠ k := by simpa using h
      by_cases hmem : k ∈ rest.map Prod.fst
      · simp [mapInsert, h, ih, hmem, Ne.symm h2]
      · simp [mapInsert, h, ih, hmem, Ne.symm h2]

theorem mapInsert_keys_nodup (m : List (String × ℕ)) (k : String) (v : ℕ)
    (h : (m.map Prod.fst).Nodup) : ((mapInsert m k v).map Prod.fst).Nodup := by
  rw [mapInsert_keys]
  by_cases hmem : k ∈ m.map Prod.fst
  · simpa [hmem] using h
  · simp [hmem, List.nodup_append, h]

theorem mapInsert_keys_mem (m : List (String × ℕ)) (k : String) (v : ℕ) (q : String) :
    q ∈ (mapInsert m k v).map Prod.fst ↔ q ∈ m.map Prod.fst ∨ q = k := by
  rw [mapInsert_keys]
  by_cases hmem : k ∈ m.map Prod.fst
  · simp only [hmem, if_true]
    constructor
    · exact Or.inl
    · rintro (h | rfl)
      · exact h
      · exact hmem
  · simp [hmem]

set_option maxRecDepth 4000 in
theorem foldl_mapInsert_lookup (pairs : List (String × ℕ)) (m : List (String × ℕ))
    (p : String) :
    mapLookup (pairs.foldl (fun acc kv => mapInsert acc kv.1 kv.2) m) p =
      match pairs.reverse.find? (fun kv => kv.1 == p) with
      | some kv => some kv.2
      | none => mapLookup m p := by
  induction pairs generalizing m with
  | nil => simp
  | cons kv rest ih =>
    rw [List.foldl_cons, ih, List.reverse_cons, List.find?_append]
    cases hfind : rest.reverse.find? (fun x => x.1 == p) with
    | some kv2 => rfl
    | none =>
      rw [Option.none_or]
      by_cases hk : (kv.1 == p) = true
      · have h2 : kv.1 = p := by simpa using hk
        subst h2
        have hs : List.find? (fun x => x.1 == kv.1) [kv] = some kv := by
          simp only [List.find?_cons, hk]
        rw [hs, mapLookup_mapInsert_self]
      · have h2 : kv.1 ≠ p := by simpa using hk
        have hk2 : (kv.1 == p) = false := by simpa using hk
        have hs : List.find? (fun x => x.1 == p) [kv] = none := by
          simp only [List.find?_cons, hk2, List.find?_nil]
        rw [hs, mapLookup_mapInsert_ne m kv.1 p kv.2 (Ne.symm h2)]

theorem foldl_mapInsert_nodup (pairs : List (String × ℕ)) (m : List (String × ℕ))
    (h : (m.map Prod.fst).Nodup) :
    (((pairs.foldl (fun acc kv => mapInsert acc kv.1 kv.2) m)).map Prod.fst).Nodup := by
  induction pairs generalizing m with
  | nil => simpa
  | cons kv rest ih => exact ih _ (mapInsert_keys_nodup m kv.1 kv.2 h)

theorem foldl_mapInsert_mem (pairs : List (String × ℕ)) (m : List (String × ℕ)) (q : String) :
    q ∈ ((pairs.foldl (fun acc kv => mapInsert acc kv.1 kv.2) m)).map Prod.fst ↔
      q ∈ m.map Prod.fst ∨ q ∈ pairs.map Prod.fst := by
  induction pairs generalizing m with
  | nil => simp
  | cons kv rest ih =>
    rw [List.foldl_cons, ih, mapInsert_keys_mem]
    simp [or_assoc, or_comm, or_left_comm]

/-- C8: with equal-length path and threshold lists, the `diskData` map of
source lines 141–146 associates a path occurring in the input with the
threshold of its LAST occurrence in the zipped input (later entries
silently overwrite earlier ones), holds one entry per distinct path (its
key list is duplicate-free), and its keys are exactly the input paths. -/
theorem C8_diskData_last_occurrence_wins (names : List String) (ts : List ℕ)
    (hlen : names.length = ts.length) (p : String) (hp : p ∈ names) :
    (∃ kv, (names.zip ts).reverse.find? (fun kv => kv.1 == p) = some kv ∧ kv.1 = p ∧
        mapLookup (buildDiskData (names.zip ts)) p = some kv.2) ∧
    ((buildDiskData (names.zip ts)).map Prod.fst).Nodup ∧
    (∀ q, q ∈ (buildDiskData (names.zip ts)).map Prod.fst ↔ q ∈ names) := by
  have hkeys : (names.zip ts).map Prod.fst = names :=
    List.map_fst_zip names ts (le_of_eq hlen)
  refine ⟨?_, ?_, ?_⟩
  · have hp2 : p ∈ (names.zip ts).map Prod.fst := by rw [hkeys]; exact hp
    obtain ⟨kv0, hkv0mem, hkv0eq⟩ := List.mem_map.mp hp2
    have hmem0 : kv0 ∈ (names.zip ts).reverse := List.mem_reverse.mpr hkv0mem
    have hne : (names.zip ts).reverse.find? (fun kv => kv.1 == p) ≠ none := by
      rw [Ne, List.find?_eq_none]
      intro hall
      exact absurd (by simp [hkv0eq]) (hall kv0 hmem0)
    obtain ⟨kv, hkv2⟩ := Option.ne_none_iff_exists.mp hne
    have hkv := hkv2.symm
    have hkveq2 := List.find?_some hkv
    have hkveq : (kv.1 == p) = true := hkveq2
    refine ⟨kv, hkv, by simpa using hkveq, ?_⟩
    rw [buildDiskData, foldl_mapInsert_lookup, hkv]
  · exact foldl_mapInsert_nodup _ _ (by simp)
  · intro q
    rw [buildDiskData, foldl_mapInsert_mem, hkeys]
    simp

/-- Witness for C8: `["/", "/tmp", "/"]` with thresholds `[1, 2, 3]` maps
`"/"` to `3`, the threshold of its last occurrence. -/
theorem C8_diskData_last_occurrence_wins_witness :
    mapLookup (buildDiskData (["/", "/tmp", "/"].zip [1, 2, 3])) "/" = some 3 := by
  obtain ⟨kv, hfind, hfst, hlook⟩ :=
    (C8_diskData_last_occurrence_wins ["/", "/tmp", "/"] [1, 2, 3] rfl "/" (by simp)).1
  have h2 : ((["/", "/tmp", "/"].zip [1, 2, 3]).reverse.find? fun kv => kv.1 == "/") =
      some ("/", 3) := by decide
  rw [h2] at hfind
  injection hfind with hfind2
  rw [← hfind2] at hlook
  exact hlook

/-! ## Claim C9 — the dispatch barrier -/

theorem orchInit_inv (host : String) (statfs : String → StatfsResult)
    (mounts : List (String × ℕ)) : orchInv host statfs mounts (orchInit mounts) := by
  simp [orchInv, orchInit]

theorem orchStep_preserves_inv (host : String) (statfs : String → StatfsResult)
    (mounts : List (String × ℕ)) (s s2 : OrchState)
    (hstep : OrchStep host statfs s s2) (hinv : orchInv host statfs mounts s) :
    orchInv host statfs mounts s2 := by
  obtain ⟨h1, h2, h3⟩ := hinv
  cases hstep with
  | skip p t rest l c w hnb =>
    refine ⟨h1, ?_, by simp⟩
    simpa [countBreaches, List.filter_cons, hnb] using h2
  | launch p t rest l c w hb =>
    refine ⟨by simp at h1 ⊢; omega, ?_, by simp⟩
    simp only [countBreaches, List.filter_cons, hb] at h2 ⊢
    simp at h2 ⊢
    omega
  | complete pend l c w r hc =>
    refine ⟨by simp at h1 ⊢; omega, by simpa using h2, ?_⟩
    intro hr
    obtain ⟨ha, hb⟩ := h3 hr
    simp only at ha hb ⊢
    exact ⟨ha, by omega⟩
  | finish l c =>
    exact ⟨h1, by simpa using h2, fun _ => ⟨rfl, rfl⟩⟩

theorem orchReachable_inv (host : String) (statfs : String → StatfsResult)
    (mounts : List (String × ℕ)) (s : OrchState)
    (hreach : Relation.ReflTransGen (OrchStep host statfs) (orchInit mounts) s) :
    orchInv host statfs mounts s := by
  induction hreach with
  | refl => exact orchInit_inv host statfs mounts
  | tail hr hstep ih => exact orchStep_preserves_inv host statfs mounts _ _ hstep ih

/-- C9: in the step-relation model of the driver loop plus `sync.WaitGroup`
(counter bumped at each launch — `wg.Add(1)` — and dropped at each task
completion — the deferred `wg.Done()`), every reachable state in which the
orchestrator has returned has launched exactly one dispatch per breaching
mount, and all launched dispatches have completed with the counter at
zero: the driver cannot return before every launched dispatch finished. -/
theorem C9_barrier_waits_for_all_dispatches (host : String)
    (statfs : String → StatfsResult) (mounts : List (String × ℕ)) (s : OrchState)
    (hreach : Relation.ReflTransGen (OrchStep host statfs) (orchInit mounts) s)
    (hret : s.returned = true) :
    s.launched = countBreaches host statfs mounts ∧ s.completed = s.launched ∧
      s.wgCounter = 0 := by
  obtain ⟨h1, h2, h3⟩ := orchReachable_inv host statfs mounts s hreach
  obtain ⟨hpend, hw⟩ := h3 hret
  rw [hpend] at h2
  simp only [countBreaches, List.filter_nil, List.length_nil, Nat.add_zero] at h2 ⊢
  omega

/-- Witness for C9: one breaching mount; the trace launches its dispatch,
the dispatch completes, the barrier releases, the driver returns. -/
theorem C9_barrier_waits_for_all_dispatches_witness :
    (⟨[], 1, 1, 0, true⟩ : OrchState).launched =
      countBreaches "myhost" (fun _ => ⟨100, 1, 0⟩) [("/", 10)] ∧
    (⟨[], 1, 1, 0, true⟩ : OrchState).completed = (⟨[], 1, 1, 0, true⟩ : OrchState).launched ∧
    (⟨[], 1, 1, 0, true⟩ : OrchState).wgCounter = 0 :=
  C9_barrier_waits_for_all_dispatches "myhost" (fun _ => ⟨100, 1, 0⟩) [("/", 10)]
    ⟨[], 1, 1, 0, true⟩
    (Relation.ReflTransGen.tail
      (Relation.ReflTransGen.tail
        (Relation.ReflTransGen.tail Relation.ReflTransGen.refl
          (OrchStep.launch "/" 10 [] 0 0 0 (by decide)))
        (OrchStep.complete [] 1 0 0 false (by decide)))
      (OrchStep.finish 1 1))
    rfl

/-! ## The binary32 rounding analysis

Value-level facts about `roundFracAt`, proved over `ℚ`, used to settle the
numerical claims C1, C3 and C5. -/

theorem log2fuel_spec (fuel : ℕ) : ∀ n : ℕ, 1 ≤ n → n ≤ fuel →
    2 ^ log2fuel fuel n ≤ n ∧ n < 2 ^ (log2fuel fuel n + 1) := by
  induction fuel with
  | zero => intro n h1 h2; omega
  | succ fuel ih =>
    intro n h1 h2
    rw [log2fuel]
    by_cases hn : n < 2
    · simp only [hn, if_true]
      constructor
      · simpa using h1
      · simpa using hn
    · simp only [hn, if_false]
      have hfuel : 1 ≤ fuel := by omega
      obtain ⟨ha, hb⟩ := ih (n / 2) (by omega) (by omega)
      constructor
      · calc 2 ^ (log2fuel fuel (n / 2) + 1) = 2 ^ log2fuel fuel (n / 2) * 2 := by ring
        _ ≤ n / 2 * 2 := by omega
        _ ≤ n := by omega
      · have : n / 2 + 1 ≤ 2 ^ (log2fuel fuel (n / 2) + 1) := hb
        calc n < (n / 2) * 2 + 2 := by omega
        _ ≤ 2 ^ (log2fuel fuel (n / 2) + 1) * 2 := by omega
        _ = 2 ^ (log2fuel fuel (n / 2) + 1 + 1) := by ring

theorem natLog2_spec (n : ℕ) (h : 1 ≤ n) :
    2 ^ natLog2 n ≤ n ∧ n < 2 ^ (natLog2 n + 1) :=
  log2fuel_spec n n h le_rfl

theorem rne_mul_le (a b : ℕ) (hb : 1 ≤ b) : 2 * b * rne a b ≤ 2 * a + b := by
  have hdm : b * (a / b) + a % b = a := Nat.div_add_mod a b
  have hr : a % b < b := Nat.mod_lt a hb
  simp only [rne]
  set q := a / b with hq
  set r := a % b with hrdef
  rw [← hdm]
  split
  · linarith
  · split
    · next hcond => linarith
    · split
      · linarith
      · next h1 h2 h3 => linarith

theorem le_rne_mul (a b : ℕ) (hb : 1 ≤ b) : 2 * a ≤ 2 * b * rne a b + b := by
  have hdm : b * (a / b) + a % b = a := Nat.div_add_mod a b
  have hr : a % b < b := Nat.mod_lt a hb
  simp only [rne]
  set q := a / b with hq
  set r := a % b with hrdef
  rw [← hdm]
  split
  · next hcond => linarith
  · split
    · linarith
    · split
      · next h1 h2 => linarith
      · linarith

theorem rne_le_rat (a b : ℕ) (hb : 1 ≤ b) : (rne a b : ℚ) ≤ (a : ℚ) / b + 1 / 2 := by
  have h := rne_mul_le a b hb
  have hb2 : (0 : ℚ) < b := by exact_mod_cast hb
  have h2 : (a : ℚ) / b + 1 / 2 = (2 * a + b) / (2 * b) := by field_simp; ring
  rw [h2, le_div_iff (by positivity)]
  have hc : ((2 * b * rne a b : ℕ) : ℚ) ≤ ((2 * a + b : ℕ) : ℚ) := by exact_mod_cast h
  push_cast at hc
  linarith

theorem le_rne_rat (a b : ℕ) (hb : 1 ≤ b) : (a : ℚ) / b - 1 / 2 ≤ (rne a b : ℚ) := by
  have h := le_rne_mul a b hb
  have hb2 : (0 : ℚ) < b := by exact_mod_cast hb
  rw [sub_le_iff_le_add, div_le_iff hb2]
  have hc : ((2 * a : ℕ) : ℚ) ≤ ((2 * b * rne a b + b : ℕ) : ℚ) := by exact_mod_cast h
  push_cast at hc
  linarith

theorem rne_one_den (a : ℕ) : rne a 1 = a := by
  simp only [rne, Nat.mod_one, Nat.mul_zero, Nat.div_one]
  rw [if_pos (by omega)]

theorem rne_exact (a b : ℕ) (hb : 1 ≤ b) (hd : b ∣ a) : rne a b = a / b := by
  obtain ⟨c, rfl⟩ := hd
  have h0 : b * c % b = 0 := Nat.mul_mod_right b c
  unfold rne
  rw [h0]
  simp only [Nat.mul_zero]
  rw [if_pos (by omega)]

theorem two_zpow_add (m n : ℤ) : (2 : ℚ) ^ (m + n) = 2 ^ m * 2 ^ n :=
  zpow_add₀ two_ne_zero m n

theorem two_zpow_pos (m : ℤ) : (0 : ℚ) < 2 ^ m := by positivity

theorem powShift_ratio (g : ℤ) :
    ((powShift g).1 : ℚ) = ((powShift g).2 : ℚ) * 2 ^ g := by
  cases g with
  | ofNat k => simp [powShift, zpow_natCast]
  | negSucc k =>
    simp only [powShift, Nat.cast_one, Nat.cast_pow, Nat.cast_ofNat, zpow_negSucc]
    exact (mul_inv_cancel₀ (by positivity)).symm

theorem powShift_pos (g : ℤ) : 0 < (powShift g).1 ∧ 0 < (powShift g).2 := by
  cases g with
  | ofNat k => exact ⟨Nat.pos_pow_of_pos k (by norm_num), by norm_num [powShift]⟩
  | negSucc k => exact ⟨by norm_num [powShift], Nat.pos_pow_of_pos (k + 1) (by norm_num)⟩

theorem fracLe2pow_iff (a b : ℕ) (hb : 1 ≤ b) (e : ℤ) :
    fracLe2pow a b e = true ↔ (2 : ℚ) ^ e ≤ (a : ℚ) / b := by
  have hb2 : (0 : ℚ) < b := by exact_mod_cast hb
  cases e with
  | ofNat k =>
    simp only [fracLe2pow, decide_eq_true_eq]
    rw [Int.ofNat_eq_coe, zpow_natCast, le_div_iff₀ hb2,
      show ((2 : ℚ) ^ k * b) = ((b * 2 ^ k : ℕ) : ℚ) by push_cast; ring, Nat.cast_le]
  | negSucc k =>
    simp only [fracLe2pow, decide_eq_true_eq]
    rw [zpow_negSucc, inv_eq_one_div, div_le_div_iff (by positivity) hb2,
      show ((a : ℚ) * 2 ^ (k + 1)) = ((a * 2 ^ (k + 1) : ℕ) : ℚ) by push_cast; ring,
      show (1 : ℚ) * b = ((b : ℕ) : ℚ) by push_cast; ring, Nat.cast_le]

theorem floorLog2Frac_spec (a b : ℕ) (ha : 1 ≤ a) (hb : 1 ≤ b) :
    (2 : ℚ) ^ floorLog2Frac a b ≤ (a : ℚ) / b ∧
      (a : ℚ) / b < (2 : ℚ) ^ (floorLog2Frac a b + 1) := by
  obtain ⟨ha1, ha2⟩ := natLog2_spec a ha
  obtain ⟨hb1, hb2⟩ := natLog2_spec b hb
  have hbq : (0 : ℚ) < b := by exact_mod_cast hb
  have hcast_a1 : ((2 : ℚ) ^ (natLog2 a : ℕ)) ≤ a := by exact_mod_cast ha1
  have hcast_a2 : (a : ℚ) < 2 ^ (natLog2 a + 1 : ℕ) := by exact_mod_cast ha2
  have hcast_b1 : ((2 : ℚ) ^ (natLog2 b : ℕ)) ≤ b := by exact_mod_cast hb1
  have hcast_b2 : (b : ℚ) < 2 ^ (natLog2 b + 1 : ℕ) := by exact_mod_cast hb2
  unfold floorLog2Frac
  by_cases hle : fracLe2pow a b ((natLog2 a : ℤ) - natLog2 b) = true
  · rw [if_pos hle]
    refine ⟨(fracLe2pow_iff a b hb _).mp hle, ?_⟩
    rw [div_lt_iff₀ hbq]
    calc (a : ℚ) < 2 ^ (natLog2 a + 1 : ℕ) := hcast_a2
    _ = 2 ^ ((natLog2 a : ℤ) - natLog2 b + 1) * 2 ^ (natLog2 b : ℤ) := by
        rw [← two_zpow_add]
        rw [← zpow_natCast (2 : ℚ) (natLog2 a + 1)]
        congr 1
        push_cast
        ring
    _ ≤ 2 ^ ((natLog2 a : ℤ) - natLog2 b + 1) * b := by
        have h2 : ((2 : ℚ) ^ (natLog2 b : ℤ)) ≤ b := by
          rw [zpow_natCast]; exact hcast_b1
        exact mul_le_mul_of_nonneg_left h2 (le_of_lt (two_zpow_pos _))
  · rw [if_neg hle]
    have hlt : (a : ℚ) / b < 2 ^ ((natLog2 a : ℤ) - natLog2 b) := by
      by_contra hcon
      exact hle ((fracLe2pow_iff a b hb _).mpr (le_of_not_lt hcon))
    constructor
    · rw [le_div_iff₀ hbq]
      calc (2 : ℚ) ^ ((natLog2 a : ℤ) - natLog2 b - 1) * b
          ≤ 2 ^ ((natLog2 a : ℤ) - natLog2 b - 1) * 2 ^ (natLog2 b + 1 : ℕ) := by
            exact mul_le_mul_of_nonneg_left (le_of_lt hcast_b2) (le_of_lt (two_zpow_pos _))
      _ = 2 ^ (natLog2 a : ℤ) := by
          rw [← zpow_natCast (2 : ℚ) (natLog2 b + 1), ← two_zpow_add]
          congr 1
          push_cast
          ring
      _ ≤ a := by rw [zpow_natCast]; exact hcast_a1
    · calc (a : ℚ) / b < 2 ^ ((natLog2 a : ℤ) - natLog2 b) := hlt
      _ = 2 ^ ((natLog2 a : ℤ) - natLog2 b - 1 + 1) := by congr 1; ring

theorem zpow_two_log_unique (e f : ℤ) (v : ℚ) (h1 : (2:ℚ) ^ e ≤ v) (h2 : v < 2 ^ (e + 1))
    (h3 : (2:ℚ) ^ f ≤ v) (h4 : v < 2 ^ (f + 1)) : e = f := by
  have ha : (1:ℚ) < 2 := one_lt_two
  have hef : e < f + 1 := (zpow_lt_zpow_iff_right₀ ha).mp (lt_of_le_of_lt h1 h4)
  have hfe : f < e + 1 := (zpow_lt_zpow_iff_right₀ ha).mp (lt_of_le_of_lt h3 h2)
  omega

theorem roundFracAt_frac_eq (a b : ℕ) (hb : 1 ≤ b) (g : ℤ) :
    ((a * (powShift g).2 : ℕ) : ℚ) / ((b * (powShift g).1 : ℕ) : ℚ) =
      (a : ℚ) / b * 2 ^ (-g) := by
  have hp := powShift_pos g
  have h1 : ((powShift g).1 : ℚ) = ((powShift g).2 : ℚ) * 2 ^ g := powShift_ratio g
  have hbq : (0 : ℚ) < b := by exact_mod_cast hb
  have hq2 : (0 : ℚ) < ((powShift g).2 : ℚ) := by exact_mod_cast hp.2
  have h2g : (0 : ℚ) < (2:ℚ) ^ g := two_zpow_pos g
  push_cast
  rw [h1, zpow_neg]
  field_simp
  ring

theorem roundFracAt_toRat_eq (a b : ℕ) (s : ℤ) :
    (roundFracAt a b s).toRat =
      (rne (a * (powShift (floorLog2Frac a b - 23)).2)
        (b * (powShift (floorLog2Frac a b - 23)).1) : ℚ) *
        2 ^ (floorLog2Frac a b - 23 + s) := rfl

theorem roundFracAt_den_pos (a b : ℕ) (hb : 1 ≤ b) (g : ℤ) :
    1 ≤ b * (powShift g).1 :=
  Nat.one_le_iff_ne_zero.mpr (Nat.mul_ne_zero (by omega)
    (Nat.one_le_iff_ne_zero.mp (powShift_pos g).1))

theorem roundFracAt_bounds (a b : ℕ) (ha : 1 ≤ a) (hb : 1 ≤ b) (s : ℤ) :
    ((a : ℚ) / b - 2 ^ (floorLog2Frac a b - 24)) * 2 ^ s ≤ (roundFracAt a b s).toRat ∧
      (roundFracAt a b s).toRat ≤ ((a : ℚ) / b + 2 ^ (floorLog2Frac a b - 24)) * 2 ^ s := by
  set e := floorLog2Frac a b with he
  set g := e - 23 with hg
  have hB := roundFracAt_den_pos a b hb g
  have hfrac := roundFracAt_frac_eq a b hb g
  have hup := rne_le_rat (a * (powShift g).2) (b * (powShift g).1) hB
  have hlo := le_rne_rat (a * (powShift g).2) (b * (powShift g).1) hB
  rw [show ((a * (powShift g).2 : ℕ) : ℚ) = ((a : ℕ) : ℚ) * ((powShift g).2 : ℚ) by push_cast; ring,
    show ((b * (powShift g).1 : ℕ) : ℚ) = ((b : ℕ) : ℚ) * ((powShift g).1 : ℚ) by push_cast; ring] at hfrac
  have hup2 : (rne (a * (powShift g).2) (b * (powShift g).1) : ℚ) ≤ (a:ℚ)/b * 2 ^ (-g) + 1/2 := by
    rw [← hfrac]
    push_cast at hup ⊢
    exact hup
  have hlo2 : (a:ℚ)/b * 2 ^ (-g) - 1/2 ≤ (rne (a * (powShift g).2) (b * (powShift g).1) : ℚ) := by
    rw [← hfrac]
    push_cast at hlo ⊢
    exact hlo
  have hkey : ∀ v : ℚ, (v * 2 ^ (-g) - 1/2) * 2 ^ (g + s) = (v - 2 ^ (e - 24)) * 2 ^ s := by
    intro v
    have h1 : (2:ℚ) ^ (-g) * 2 ^ (g + s) = 2 ^ s := by
      rw [← two_zpow_add]; congr 1; ring
    have h2 : (1/2 : ℚ) * 2 ^ (g + s) = 2 ^ (e - 24) * 2 ^ s := by
      rw [show (1/2 : ℚ) = 2 ^ (-1 : ℤ) by norm_num, ← two_zpow_add, ← two_zpow_add]
      congr 1
      omega
    calc (v * 2 ^ (-g) - 1/2) * 2 ^ (g + s)
        = v * (2 ^ (-g) * 2 ^ (g + s)) - (1/2) * 2 ^ (g + s) := by ring
    _ = v * 2 ^ s - 2 ^ (e - 24) * 2 ^ s := by rw [h1, h2]
    _ = (v - 2 ^ (e - 24)) * 2 ^ s := by ring
  have hkey2 : ∀ v : ℚ, (v * 2 ^ (-g) + 1/2) * 2 ^ (g + s) = (v + 2 ^ (e - 24)) * 2 ^ s := by
    intro v
    have h1 : (2:ℚ) ^ (-g) * 2 ^ (g + s) = 2 ^ s := by
      rw [← two_zpow_add]; congr 1; ring
    have h2 : (1/2 : ℚ) * 2 ^ (g + s) = 2 ^ (e - 24) * 2 ^ s := by
      rw [show (1/2 : ℚ) = 2 ^ (-1 : ℤ) from by norm_num, ← two_zpow_add, ← two_zpow_add]
      congr 1
      omega
    calc (v * 2 ^ (-g) + 1/2) * 2 ^ (g + s)
        = v * (2 ^ (-g) * 2 ^ (g + s)) + (1/2) * 2 ^ (g + s) := by ring
    _ = v * 2 ^ s + 2 ^ (e - 24) * 2 ^ s := by rw [h1, h2]
    _ = (v + 2 ^ (e - 24)) * 2 ^ s := by ring
  constructor
  · rw [roundFracAt_toRat_eq]
    calc ((a:ℚ)/b - 2 ^ (e - 24)) * 2 ^ s
        = ((a:ℚ)/b * 2 ^ (-g) - 1/2) * 2 ^ (g + s) := (hkey ((a:ℚ)/b)).symm
    _ ≤ _ := mul_le_mul_of_nonneg_right hlo2 (le_of_lt (two_zpow_pos _))
  · rw [roundFracAt_toRat_eq]
    calc (rne (a * (powShift g).2) (b * (powShift g).1) : ℚ) * 2 ^ (g + s)
        ≤ ((a:ℚ)/b * 2 ^ (-g) + 1/2) * 2 ^ (g + s) :=
          mul_le_mul_of_nonneg_right hup2 (le_of_lt (two_zpow_pos _))
    _ = ((a:ℚ)/b + 2 ^ (e - 24)) * 2 ^ s := hkey2 ((a:ℚ)/b)

theorem two_zpow_23_cast : ((2 ^ 23 : ℕ) : ℚ) = (2 : ℚ) ^ (23 : ℤ) := by
  norm_num

theorem two_zpow_24_cast : ((2 ^ 24 : ℕ) : ℚ) = (2 : ℚ) ^ (24 : ℤ) := by
  norm_num

theorem roundFracAt_m_bounds (a b : ℕ) (ha : 1 ≤ a) (hb : 1 ≤ b) (s : ℤ) :
    2 ^ 23 ≤ (roundFracAt a b s).m ∧ (roundFracAt a b s).m ≤ 2 ^ 24 := by
  set e := floorLog2Frac a b with he
  set g := e - 23 with hg
  obtain ⟨hc1, hc2⟩ := floorLog2Frac_spec a b ha hb
  have hB := roundFracAt_den_pos a b hb g
  have hfrac := roundFracAt_frac_eq a b hb g
  have hup := rne_le_rat (a * (powShift g).2) (b * (powShift g).1) hB
  have hlo := le_rne_rat (a * (powShift g).2) (b * (powShift g).1) hB
  rw [hfrac] at hup hlo
  have hvlo : (2 : ℚ) ^ (23 : ℤ) ≤ (a : ℚ) / b * 2 ^ (-g) := by
    calc (2 : ℚ) ^ (23 : ℤ) = 2 ^ e * 2 ^ (-g) := by
          rw [← two_zpow_add]; congr 1; omega
    _ ≤ (a : ℚ) / b * 2 ^ (-g) :=
        mul_le_mul_of_nonneg_right hc1 (le_of_lt (two_zpow_pos _))
  have hvhi : (a : ℚ) / b * 2 ^ (-g) < (2 : ℚ) ^ (24 : ℤ) := by
    calc (a : ℚ) / b * 2 ^ (-g) < 2 ^ (e + 1) * 2 ^ (-g) :=
          mul_lt_mul_of_pos_right hc2 (two_zpow_pos _)
    _ = (2 : ℚ) ^ (24 : ℤ) := by rw [← two_zpow_add]; congr 1; omega
  constructor
  · have h1 : ((2 ^ 23 : ℕ) : ℚ) - 1 < (rne (a * (powShift g).2) (b * (powShift g).1) : ℚ) := by
      rw [two_zpow_23_cast]
      linarith
    have h2 : (2 ^ 23 : ℕ) - 1 < rne (a * (powShift g).2) (b * (powShift g).1) := by
      have h3 : ((2 ^ 23 - 1 : ℕ) : ℚ) < (rne (a * (powShift g).2) (b * (powShift g).1) : ℚ) := by
        push_cast [Nat.cast_sub (by norm_num : (1:ℕ) ≤ 2 ^ 23)] at h1 ⊢
        linarith
      exact_mod_cast h3
    simpa [roundFracAt] using (by omega : 2 ^ 23 ≤ rne (a * (powShift g).2) (b * (powShift g).1))
  · have h1 : (rne (a * (powShift g).2) (b * (powShift g).1) : ℚ) < ((2 ^ 24 : ℕ) : ℚ) + 1 := by
      rw [two_zpow_24_cast]
      linarith
    have h2 : rne (a * (powShift g).2) (b * (powShift g).1) < 2 ^ 24 + 1 := by
      exact_mod_cast h1
    simpa [roundFracAt] using (by omega : rne (a * (powShift g).2) (b * (powShift g).1) ≤ 2 ^ 24)

theorem le_roundFracAt_toRat (a b : ℕ) (ha : 1 ≤ a) (hb : 1 ≤ b) (s : ℤ) :
    (2 : ℚ) ^ (floorLog2Frac a b + s) ≤ (roundFracAt a b s).toRat := by
  set e := floorLog2Frac a b with he
  set g := e - 23 with hg
  have hm := (roundFracAt_m_bounds a b ha hb s).1
  have hmq : (2 : ℚ) ^ (23 : ℤ) ≤ ((roundFracAt a b s).m : ℚ) := by
    rw [← two_zpow_23_cast]
    exact_mod_cast hm
  have hE : (roundFracAt a b s).e = g + s := rfl
  calc (2 : ℚ) ^ (e + s) = 2 ^ (23 : ℤ) * 2 ^ (g + s) := by
        rw [← two_zpow_add]; congr 1; omega
  _ ≤ ((roundFracAt a b s).m : ℚ) * 2 ^ (g + s) :=
      mul_le_mul_of_nonneg_right hmq (le_of_lt (two_zpow_pos _))
  _ = (roundFracAt a b s).toRat := by rw [Dyadic.toRat, hE]

theorem roundFracAt_le_of_le (a b c : ℕ) (ha : 1 ≤ a) (hb : 1 ≤ b) (hc : 1 ≤ c)
    (hc24 : c < 2 ^ 24) (j s : ℤ) (hle : (a : ℚ) / b ≤ (c : ℚ) * 2 ^ j) :
    (roundFracAt a b s).toRat ≤ (c : ℚ) * 2 ^ (j + s) := by
  set e := floorLog2Frac a b with he
  set g := e - 23 with hg
  obtain ⟨hc1, hc2⟩ := floorLog2Frac_spec a b ha hb
  have hcq : (c : ℚ) < (2 : ℚ) ^ (24 : ℤ) := by
    rw [← two_zpow_24_cast]
    exact_mod_cast hc24
  have hej : e ≤ 23 + j := by
    have h1 : (2 : ℚ) ^ e < 2 ^ (24 + j) := by
      calc (2 : ℚ) ^ e ≤ (c : ℚ) * 2 ^ j := le_trans hc1 hle
      _ < 2 ^ (24 : ℤ) * 2 ^ j := mul_lt_mul_of_pos_right hcq (two_zpow_pos j)
      _ = 2 ^ (24 + j) := (two_zpow_add 24 j).symm
    have := (zpow_lt_zpow_iff_right₀ (one_lt_two (α := ℚ))).mp h1
    omega
  have hCq : ((c * 2 ^ (j + 23 - e).toNat : ℕ) : ℚ) = (c : ℚ) * 2 ^ (j + 23 - e) := by
    push_cast
    rw [← zpow_natCast (2 : ℚ) (j + 23 - e).toNat, Int.toNat_of_nonneg (by omega)]
  have hB := roundFracAt_den_pos a b hb g
  have hfrac := roundFracAt_frac_eq a b hb g
  have hup := rne_le_rat (a * (powShift g).2) (b * (powShift g).1) hB
  rw [hfrac] at hup
  have hABle : (a : ℚ) / b * 2 ^ (-g) ≤ ((c * 2 ^ (j + 23 - e).toNat : ℕ) : ℚ) := by
    rw [hCq]
    calc (a : ℚ) / b * 2 ^ (-g) ≤ (c : ℚ) * 2 ^ j * 2 ^ (-g) :=
          mul_le_mul_of_nonneg_right hle (le_of_lt (two_zpow_pos _))
    _ = (c : ℚ) * 2 ^ (j + 23 - e) := by
        rw [mul_assoc, ← two_zpow_add]
        congr 2
        omega
  have hN : rne (a * (powShift g).2) (b * (powShift g).1) ≤ c * 2 ^ (j + 23 - e).toNat := by
    have h2 : (rne (a * (powShift g).2) (b * (powShift g).1) : ℚ) <
        ((c * 2 ^ (j + 23 - e).toNat : ℕ) : ℚ) + 1 := by linarith
    have h3 : rne (a * (powShift g).2) (b * (powShift g).1) <
        c * 2 ^ (j + 23 - e).toNat + 1 := by exact_mod_cast h2
    omega
  rw [roundFracAt_toRat_eq]
  calc (rne (a * (powShift (e - 23)).2) (b * (powShift (e - 23)).1) : ℚ) * 2 ^ (e - 23 + s)
      ≤ ((c * 2 ^ (j + 23 - e).toNat : ℕ) : ℚ) * 2 ^ (e - 23 + s) := by
        refine mul_le_mul_of_nonneg_right ?_ (le_of_lt (two_zpow_pos _))
        exact_mod_cast hN
  _ = (c : ℚ) * 2 ^ (j + s) := by
      rw [hCq, mul_assoc, ← two_zpow_add]
      congr 2
      omega

theorem roundFracAt_exact (a b k : ℕ) (ha : 1 ≤ a) (hb : 1 ≤ b)
    (hk1 : 2 ^ 23 ≤ k) (hk2 : k < 2 ^ 24) (j s : ℤ)
    (hv : (a : ℚ) / b = (k : ℚ) * 2 ^ j) :
    (roundFracAt a b s).toRat = (k : ℚ) * 2 ^ (j + s) := by
  obtain ⟨hc1, hc2⟩ := floorLog2Frac_spec a b ha hb
  have hkq1 : (2 : ℚ) ^ (23 : ℤ) ≤ (k : ℚ) := by
    rw [← two_zpow_23_cast]; exact_mod_cast hk1
  have hkq2 : (k : ℚ) < (2 : ℚ) ^ (24 : ℤ) := by
    rw [← two_zpow_24_cast]; exact_mod_cast hk2
  have he : floorLog2Frac a b = 23 + j := by
    refine zpow_two_log_unique _ _ ((a : ℚ) / b) hc1 hc2 ?_ ?_
    · rw [hv]
      calc (2 : ℚ) ^ (23 + j) = 2 ^ (23 : ℤ) * 2 ^ j := two_zpow_add 23 j
      _ ≤ (k : ℚ) * 2 ^ j := mul_le_mul_of_nonneg_right hkq1 (le_of_lt (two_zpow_pos _))
    · rw [hv]
      calc (k : ℚ) * 2 ^ j < 2 ^ (24 : ℤ) * 2 ^ j :=
            mul_lt_mul_of_pos_right hkq2 (two_zpow_pos _)
      _ = 2 ^ (23 + j + 1) := by rw [← two_zpow_add]; congr 1; omega
  have hB := roundFracAt_den_pos a b hb (floorLog2Frac a b - 23)
  have hfrac := roundFracAt_frac_eq a b hb (floorLog2Frac a b - 23)
  have hABk : ((a * (powShift (floorLog2Frac a b - 23)).2 : ℕ) : ℚ) /
      ((b * (powShift (floorLog2Frac a b - 23)).1 : ℕ) : ℚ) = (k : ℚ) := by
    rw [hfrac, hv, he, mul_assoc, ← two_zpow_add]
    rw [show j + -(23 + j - 23) = 0 by omega]
    norm_num
  have hBq : (0 : ℚ) < ((b * (powShift (floorLog2Frac a b - 23)).1 : ℕ) : ℚ) := by
    exact_mod_cast hB
  have hA : a * (powShift (floorLog2Frac a b - 23)).2 =
      k * (b * (powShift (floorLog2Frac a b - 23)).1) := by
    have h2 := (div_eq_iff (ne_of_gt hBq)).mp hABk
    exact_mod_cast h2
  have hrne : rne (a * (powShift (floorLog2Frac a b - 23)).2)
      (b * (powShift (floorLog2Frac a b - 23)).1) = k := by
    rw [hA, rne_exact _ _ hB (dvd_mul_left _ _)]
    exact Nat.mul_div_cancel _ (by omega)
  rw [roundFracAt_toRat_eq, hrne, he, show (23 : ℤ) + j - 23 + s = j + s from by omega]

theorem rne_mono_num (a1 a2 b : ℕ) (hb : 1 ≤ b) (h : a1 ≤ a2) : rne a1 b ≤ rne a2 b := by
  rcases Nat.eq_or_lt_of_le h with rfl | hlt
  · exact le_rfl
  · by_contra hcon
    push_neg at hcon
    have h1 := rne_le_rat a1 b hb
    have h2 := le_rne_rat a2 b hb
    have hbq : (0 : ℚ) < b := by exact_mod_cast hb
    have hbin : (0 : ℚ) < 1 / b := by positivity
    have hstep : (a1 : ℚ) / b + 1 / b ≤ (a2 : ℚ) / b := by
      rw [div_add_div_same, div_le_div_iff hbq hbq]
      have : ((a1 + 1 : ℕ) : ℚ) ≤ (a2 : ℚ) := by exact_mod_cast hlt
      push_cast at this ⊢
      nlinarith
    have hcast : (rne a2 b : ℚ) + 1 ≤ (rne a1 b : ℚ) := by exact_mod_cast hcon
    linarith

theorem f32ofNat_toRat_mono (m n : ℕ) (hm : 1 ≤ m) (h : m ≤ n) :
    (f32ofNat m).toRat ≤ (f32ofNat n).toRat := by
  have hn : 1 ≤ n := le_trans hm h
  rw [f32ofNat, f32ofNat, if_neg (by omega), if_neg (by omega)]
  have hc1 := floorLog2Frac_spec m 1 hm le_rfl
  have hc2 := floorLog2Frac_spec n 1 hn le_rfl
  simp only [Nat.cast_one, div_one] at hc1 hc2
  have he : floorLog2Frac m 1 ≤ floorLog2Frac n 1 := by
    have h1 : (2 : ℚ) ^ floorLog2Frac m 1 < 2 ^ (floorLog2Frac n 1 + 1) := by
      calc (2 : ℚ) ^ floorLog2Frac m 1 ≤ (m : ℚ) := hc1.1
      _ ≤ (n : ℚ) := by exact_mod_cast h
      _ < 2 ^ (floorLog2Frac n 1 + 1) := hc2.2
    have := (zpow_lt_zpow_iff_right₀ (one_lt_two (α := ℚ))).mp h1
    omega
  rcases eq_or_lt_of_le he with heq | hlt2
  · unfold roundFracAt
    rw [← heq]
    simp only [Dyadic.toRat]
    refine mul_le_mul_of_nonneg_right ?_ (le_of_lt (two_zpow_pos _))
    have := rne_mono_num (m * (powShift (floorLog2Frac m 1 - 23)).2)
      (n * (powShift (floorLog2Frac m 1 - 23)).2)
      (1 * (powShift (floorLog2Frac m 1 - 23)).1)
      (roundFracAt_den_pos m 1 le_rfl _) (Nat.mul_le_mul_right _ h)
    exact_mod_cast this
  · have hup : (roundFracAt m 1 0).toRat ≤ (1 : ℚ) * 2 ^ (floorLog2Frac m 1 + 1 + 0) := by
      refine roundFracAt_le_of_le m 1 1 hm le_rfl le_rfl (by norm_num) (floorLog2Frac m 1 + 1) 0 ?_
      simp only [Nat.cast_one, div_one, one_mul]
      exact le_of_lt hc1.2
    have hlo : (2 : ℚ) ^ (floorLog2Frac n 1 + 0) ≤ (roundFracAt n 1 0).toRat :=
      le_roundFracAt_toRat n 1 hn le_rfl 0
    calc (roundFracAt m 1 0).toRat ≤ (1 : ℚ) * 2 ^ (floorLog2Frac m 1 + 1 + 0) := hup
    _ ≤ (2 : ℚ) ^ (floorLog2Frac n 1 + 0) := by
        rw [one_mul]
        refine zpow_le_zpow_right₀ one_le_two ?_
        omega
    _ ≤ (roundFracAt n 1 0).toRat := hlo

theorem dyadicFloor_eq_natFloor (d : Dyadic) : dyadicFloor d = ⌊d.toRat⌋₊ := by
  rcases d with ⟨m, e⟩
  cases e with
  | ofNat k =>
    simp only [dyadicFloor, Dyadic.toRat]
    rw [show Int.ofNat k = (k : ℤ) from rfl, zpow_natCast,
      show ((m : ℚ) * (2 : ℚ) ^ k) = ((m * 2 ^ k : ℕ) : ℚ) by push_cast; ring,
      Nat.floor_natCast]
  | negSucc k =>
    simp only [dyadicFloor, Dyadic.toRat, zpow_negSucc]
    rw [← div_eq_mul_inv,
      show ((2 : ℚ) ^ (k + 1)) = ((2 ^ (k + 1) : ℕ) : ℚ) by push_cast; ring,
      Nat.floor_div_nat, Nat.floor_natCast]

theorem goFreePercentage_zero (all : ℕ) : goFreePercentage 0 all = 0 := rfl

theorem f32ofNat_100 : f32ofNat 100 = ⟨13107200, -17⟩ := by decide

theorem f32ofNat_100_toRat : (f32ofNat 100).toRat = 100 := by
  rw [f32ofNat_100, Dyadic.toRat]
  norm_num

theorem toRat_div_le (x y : Dyadic) (hy : 0 < y.m) (h : x.toRat ≤ y.toRat) :
    (x.m : ℚ) / y.m ≤ 2 ^ (y.e - x.e) := by
  have hyq : (0 : ℚ) < (y.m : ℚ) := by exact_mod_cast hy
  rw [div_le_iff₀ hyq]
  have h2 := mul_le_mul_of_nonneg_right h (le_of_lt (two_zpow_pos (-x.e)))
  have hL : x.toRat * 2 ^ (-x.e) = (x.m : ℚ) := by
    rw [Dyadic.toRat, mul_assoc, ← two_zpow_add, show x.e + -x.e = 0 by omega]
    norm_num
  have hR : y.toRat * 2 ^ (-x.e) = (y.m : ℚ) * 2 ^ (y.e - x.e) := by
    rw [Dyadic.toRat, mul_assoc, ← two_zpow_add, Int.sub_eq_add_neg]
  rw [hL, hR] at h2
  linarith [h2]

/-- Core bound for claim C5: with `0 < total` and `free ≤ total`, the
`float32` free-percentage computation of source line 73 cannot exceed 100. -/
theorem goFreePercentage_le_100 (free all : ℕ) (hall : 0 < all) (hfree : free ≤ all) :
    goFreePercentage free all ≤ 100 := by
  rcases Nat.eq_zero_or_pos free with rfl | hfpos
  · rw [goFreePercentage_zero]
    omega
  unfold goFreePercentage
  rw [show f32ofNat free = roundFracAt free 1 0 from by rw [f32ofNat, if_neg (by omega)],
    show f32ofNat all = roundFracAt all 1 0 from by rw [f32ofNat, if_neg (by omega)]]
  have hxm := roundFracAt_m_bounds free 1 hfpos le_rfl 0
  have hym := roundFracAt_m_bounds all 1 hall le_rfl 0
  have hmono : (roundFracAt free 1 0).toRat ≤ (roundFracAt all 1 0).toRat := by
    have := f32ofNat_toRat_mono free all hfpos hfree
    rwa [f32ofNat, if_neg (by omega), f32ofNat, if_neg (by omega)] at this
  have hdivle := toRat_div_le (roundFracAt free 1 0) (roundFracAt all 1 0) (by omega) hmono
  rw [f32div, if_neg (by omega)]
  have hrle : (roundFracAt (roundFracAt free 1 0).m (roundFracAt all 1 0).m
      ((roundFracAt free 1 0).e - (roundFracAt all 1 0).e)).toRat ≤ 1 := by
    have := roundFracAt_le_of_le (roundFracAt free 1 0).m (roundFracAt all 1 0).m 1
      (by omega) (by omega) le_rfl (by norm_num)
      ((roundFracAt all 1 0).e - (roundFracAt free 1 0).e)
      ((roundFracAt free 1 0).e - (roundFracAt all 1 0).e)
      (by rw [Nat.cast_one, one_mul]; exact hdivle)
    rw [show (roundFracAt all 1 0).e - (roundFracAt free 1 0).e +
        ((roundFracAt free 1 0).e - (roundFracAt all 1 0).e) = 0 from by omega] at this
    simpa using this
  set r := roundFracAt (roundFracAt free 1 0).m (roundFracAt all 1 0).m
    ((roundFracAt free 1 0).e - (roundFracAt all 1 0).e) with hr
  have hrm : 2 ^ 23 ≤ r.m ∧ r.m ≤ 2 ^ 24 := by
    rw [hr]
    exact roundFracAt_m_bounds (roundFracAt free 1 0).m (roundFracAt all 1 0).m
      (by omega) (by omega) ((roundFracAt free 1 0).e - (roundFracAt all 1 0).e)
  have hc100m : (f32ofNat 100).m = 13107200 := by decide
  have hc100e : (f32ofNat 100).e = -17 := by decide
  rw [f32mul, if_neg (by push_neg; exact ⟨by omega, by rw [hc100m]; omega⟩), hc100m, hc100e]
  have hrm2 : (r.m : ℚ) ≤ 2 ^ (-r.e) := by
    have h3 := mul_le_mul_of_nonneg_right hrle (le_of_lt (two_zpow_pos (-r.e)))
    rw [Dyadic.toRat, mul_assoc, ← two_zpow_add, show r.e + -r.e = 0 from by omega] at h3
    simpa using h3
  have hfin : (roundFracAt (r.m * 13107200) 1 (r.e + (-17))).toRat ≤
      ((100 : ℕ) : ℚ) * 2 ^ ((17 : ℤ) - r.e + (r.e + (-17))) := by
    refine roundFracAt_le_of_le (r.m * 13107200) 1 100 (by omega) le_rfl (by norm_num)
      (by norm_num) ((17 : ℤ) - r.e) (r.e + (-17)) ?_
    push_cast
    rw [div_one]
    calc (r.m : ℚ) * 13107200 ≤ 2 ^ (-r.e) * 13107200 :=
          mul_le_mul_of_nonneg_right hrm2 (by norm_num)
    _ = 100 * 2 ^ ((17 : ℤ) - r.e) := by
        rw [show ((13107200 : ℚ)) = 100 * 2 ^ (17 : ℤ) from by norm_num,
          show (17 : ℤ) - r.e = 17 + -r.e from by omega, two_zpow_add]
        ring
  have h100 : (roundFracAt (r.m * 13107200) 1 (r.e + (-17))).toRat ≤ (100 : ℚ) := by
    rw [show (17 : ℤ) - r.e + (r.e + (-17)) = 0 from by omega] at hfin
    simpa using hfin
  rw [dyadicFloor_eq_natFloor]
  calc ⌊(roundFracAt (r.m * 13107200) 1 (r.e + (-17))).toRat⌋₊ ≤ ⌊(100 : ℚ)⌋₊ :=
        Nat.floor_le_floor h100
  _ = 100 := by norm_num

theorem Dyadic.toRat_nonneg (d : Dyadic) : 0 ≤ d.toRat := by
  rw [Dyadic.toRat]
  positivity

theorem Dyadic.toRat_pos (d : Dyadic) (h : 0 < d.m) : 0 < d.toRat := by
  rw [Dyadic.toRat]
  have : (0:ℚ) < (d.m : ℚ) := by exact_mod_cast h
  exact mul_pos this (two_zpow_pos _)

theorem roundFracAt_rel (a b : ℕ) (ha : 1 ≤ a) (hb : 1 ≤ b) (s : ℤ) :
    (a : ℚ) / b * 2 ^ s * (1 - 1 / 16777216) ≤ (roundFracAt a b s).toRat ∧
      (roundFracAt a b s).toRat ≤ (a : ℚ) / b * 2 ^ s * (1 + 1 / 16777216) := by
  obtain ⟨h1, h2⟩ := roundFracAt_bounds a b ha hb s
  obtain ⟨hc1, hc2⟩ := floorLog2Frac_spec a b ha hb
  have heps : (2 : ℚ) ^ (-24 : ℤ) = 1 / 16777216 := by norm_num
  have hul : (2 : ℚ) ^ (floorLog2Frac a b - 24) ≤ (a : ℚ) / b * (1 / 16777216) := by
    calc (2 : ℚ) ^ (floorLog2Frac a b - 24)
        = 2 ^ floorLog2Frac a b * 2 ^ (-24 : ℤ) := by
          rw [← two_zpow_add, Int.sub_eq_add_neg]
    _ ≤ (a : ℚ) / b * 2 ^ (-24 : ℤ) :=
        mul_le_mul_of_nonneg_right hc1 (le_of_lt (two_zpow_pos _))
    _ = (a : ℚ) / b * (1 / 16777216) := by rw [heps]
  have hspos : (0 : ℚ) < 2 ^ s := two_zpow_pos s
  constructor
  · calc (a : ℚ) / b * 2 ^ s * (1 - 1 / 16777216)
        = ((a : ℚ) / b - (a : ℚ) / b * (1 / 16777216)) * 2 ^ s := by ring
    _ ≤ ((a : ℚ) / b - 2 ^ (floorLog2Frac a b - 24)) * 2 ^ s := by
        refine mul_le_mul_of_nonneg_right ?_ (le_of_lt hspos)
        linarith
    _ ≤ _ := h1
  · calc (roundFracAt a b s).toRat
        ≤ ((a : ℚ) / b + 2 ^ (floorLog2Frac a b - 24)) * 2 ^ s := h2
    _ ≤ ((a : ℚ) / b + (a : ℚ) / b * (1 / 16777216)) * 2 ^ s := by
        refine mul_le_mul_of_nonneg_right ?_ (le_of_lt hspos)
        linarith
    _ = (a : ℚ) / b * 2 ^ s * (1 + 1 / 16777216) := by ring

theorem freePct_final_bound (Rv P : ℚ) (hR0 : 0 ≤ Rv) (hR1 : Rv ≤ 1)
    (hup : P ≤ 100 * Rv * (1 + 1 / 16777216) ^ 3 / (1 - 1 / 16777216))
    (hlo : 100 * Rv * (1 - 1 / 16777216) ^ 3 / (1 + 1 / 16777216) ≤ P) :
    P ≤ 100 * Rv + 1 ∧ 100 * Rv ≤ P + 1 := by
  constructor
  · have h2 : 100 * Rv * (1 + 1 / 16777216) ^ 3 / (1 - 1 / 16777216) ≤ 100 * Rv + 1 := by
      rw [div_le_iff₀ (by norm_num)]
      nlinarith [hR0, hR1]
    linarith
  · have h2 : 100 * Rv - 1 ≤ 100 * Rv * (1 - 1 / 16777216) ^ 3 / (1 + 1 / 16777216) := by
      rw [le_div_iff₀ (by norm_num)]
      nlinarith [hR0, hR1]
    linarith

/-- Core bound for claim C1: the binary32 computation of the free
percentage differs from the exact `⌊free * 100 / total⌋` by at most one
(for `0 < total`, `free ≤ total`).  Each of the five roundings (two
conversions, the division, the multiplication, none for the exact constant
100) has relative error at most `2^-24`, so the computed value is within
`100 * ((1 + ε)^3/(1 - ε) - 1) < 1` of the exact ratio before truncation. -/
theorem goFreePercentage_within_one (free all : ℕ) (hall : 0 < all) (hfree : free ≤ all) :
    goFreePercentage free all ≤ free * 100 / all + 1 ∧
      free * 100 / all ≤ goFreePercentage free all + 1 := by
  rcases Nat.eq_zero_or_pos free with rfl | hfpos
  · rw [goFreePercentage_zero, Nat.zero_mul, Nat.zero_div]
    omega
  unfold goFreePercentage
  rw [show f32ofNat free = roundFracAt free 1 0 from by rw [f32ofNat, if_neg (by omega)],
    show f32ofNat all = roundFracAt all 1 0 from by rw [f32ofNat, if_neg (by omega)]]
  set x := roundFracAt free 1 0 with hxdef
  set y := roundFracAt all 1 0 with hydef
  have hxm : 2 ^ 23 ≤ x.m ∧ x.m ≤ 2 ^ 24 := by
    rw [hxdef]; exact roundFracAt_m_bounds free 1 hfpos le_rfl 0
  have hym : 2 ^ 23 ≤ y.m ∧ y.m ≤ 2 ^ 24 := by
    rw [hydef]; exact roundFracAt_m_bounds all 1 hall le_rfl 0
  rw [f32div, if_neg (by omega)]
  set r := roundFracAt x.m y.m (x.e - y.e) with hrdef
  have hrm : 2 ^ 23 ≤ r.m ∧ r.m ≤ 2 ^ 24 := by
    rw [hrdef]; exact roundFracAt_m_bounds x.m y.m (by omega) (by omega) (x.e - y.e)
  have hc100m : (f32ofNat 100).m = 13107200 := by decide
  have hc100e : (f32ofNat 100).e = -17 := by decide
  rw [f32mul, if_neg (by push_neg; exact ⟨by omega, by rw [hc100m]; omega⟩), hc100m, hc100e]
  set p := roundFracAt (r.m * 13107200) 1 (r.e + (-17)) with hpdef
  have hFq : (1 : ℚ) ≤ (free : ℚ) := by exact_mod_cast hfpos
  have hAq : (1 : ℚ) ≤ (all : ℚ) := by exact_mod_cast hall
  have hFA : (free : ℚ) ≤ (all : ℚ) := by exact_mod_cast hfree
  have hx : (free : ℚ) * (1 - 1 / 16777216) ≤ x.toRat ∧
      x.toRat ≤ (free : ℚ) * (1 + 1 / 16777216) := by
    rw [hxdef]
    have h := roundFracAt_rel free 1 hfpos le_rfl 0
    simpa using h
  have hy : (all : ℚ) * (1 - 1 / 16777216) ≤ y.toRat ∧
      y.toRat ≤ (all : ℚ) * (1 + 1 / 16777216) := by
    rw [hydef]
    have h := roundFracAt_rel all 1 hall le_rfl 0
    simpa using h
  have hY0 : (0 : ℚ) < y.toRat := Dyadic.toRat_pos y (by omega)
  have hX0 : (0 : ℚ) < x.toRat := Dyadic.toRat_pos x (by omega)
  have hw : (x.m : ℚ) / y.m * 2 ^ (x.e - y.e) = x.toRat / y.toRat := by
    have hym0 : ((y.m : ℚ)) ≠ 0 := by
      have : (0:ℚ) < (y.m:ℚ) := by exact_mod_cast (by omega : 0 < y.m)
      exact ne_of_gt this
    have h2 : ((2:ℚ) ^ y.e) ≠ 0 := ne_of_gt (two_zpow_pos _)
    rw [Dyadic.toRat, Dyadic.toRat, Int.sub_eq_add_neg, two_zpow_add, zpow_neg]
    field_simp
  have hr : x.toRat / y.toRat * (1 - 1 / 16777216) ≤ r.toRat ∧
      r.toRat ≤ x.toRat / y.toRat * (1 + 1 / 16777216) := by
    rw [hrdef]
    have h := roundFracAt_rel x.m y.m (by omega) (by omega) (x.e - y.e)
    rw [hw] at h
    exact h
  have hR0 : (0 : ℚ) < r.toRat := Dyadic.toRat_pos r (by omega)
  have hpv : ((r.m * 13107200 : ℕ) : ℚ) / ((1 : ℕ) : ℚ) * 2 ^ (r.e + (-17)) =
      r.toRat * 100 := by
    push_cast
    rw [div_one, Dyadic.toRat,
      show ((13107200 : ℚ)) = 100 * 2 ^ (17 : ℤ) from by norm_num, two_zpow_add]
    have h17 : (2:ℚ) ^ (17 : ℤ) * 2 ^ (-17 : ℤ) = 1 := by
      rw [← two_zpow_add]
      norm_num
    calc (r.m : ℚ) * (100 * 2 ^ (17:ℤ)) * (2 ^ r.e * 2 ^ (-17 : ℤ))
        = (r.m : ℚ) * 2 ^ r.e * 100 * (2 ^ (17:ℤ) * 2 ^ (-17:ℤ)) := by ring
    _ = (r.m : ℚ) * 2 ^ r.e * 100 := by rw [h17, mul_one]
  have hp : r.toRat * 100 * (1 - 1 / 16777216) ≤ p.toRat ∧
      p.toRat ≤ r.toRat * 100 * (1 + 1 / 16777216) := by
    rw [hpdef]
    have h := roundFracAt_rel (r.m * 13107200) 1 (by omega) le_rfl (r.e + (-17))
    rw [show ((r.m * 13107200 : ℕ) : ℚ) / ((1 : ℕ) : ℚ) = ((r.m * 13107200 : ℕ) : ℚ) / 1 from by norm_num] at h
    rw [show ((r.m * 13107200 : ℕ) : ℚ) / (1:ℚ) * 2 ^ (r.e + (-17)) = r.toRat * 100 from by
      rw [← hpv]; norm_num] at h
    exact h
  -- quotient interval
  have hA0 : (0 : ℚ) < (all : ℚ) := by linarith
  have hden1 : (0 : ℚ) < (all : ℚ) * (1 - 1 / 16777216) := by
    apply mul_pos hA0
    norm_num
  have hden2 : (0 : ℚ) < (all : ℚ) * (1 + 1 / 16777216) := by
    apply mul_pos hA0
    norm_num
  have hXY_up : x.toRat / y.toRat ≤
      ((free : ℚ) * (1 + 1 / 16777216)) / ((all : ℚ) * (1 - 1 / 16777216)) := by
    apply div_le_div (by positivity) hx.2 hden1 hy.1
  have hXY_lo : ((free : ℚ) * (1 - 1 / 16777216)) / ((all : ℚ) * (1 + 1 / 16777216)) ≤
      x.toRat / y.toRat := by
    apply div_le_div (le_of_lt hX0) hx.1 hY0 hy.2
  rw [mul_div_mul_comm] at hXY_up hXY_lo
  -- compose to the final bound shape
  have hup : p.toRat ≤ 100 * ((free : ℚ) / all) * (1 + 1 / 16777216) ^ 3 / (1 - 1 / 16777216) := by
    have h1 : r.toRat ≤ (free : ℚ) / all * ((1 + 1 / 16777216) / (1 - 1 / 16777216)) *
        (1 + 1 / 16777216) :=
      le_trans hr.2 (mul_le_mul_of_nonneg_right hXY_up (by norm_num))
    have h2 : p.toRat ≤ (free : ℚ) / all * ((1 + 1 / 16777216) / (1 - 1 / 16777216)) *
        (1 + 1 / 16777216) * 100 * (1 + 1 / 16777216) := by
      calc p.toRat ≤ r.toRat * 100 * (1 + 1 / 16777216) := hp.2
      _ ≤ _ := by
          refine mul_le_mul_of_nonneg_right (mul_le_mul_of_nonneg_right h1 (by norm_num))
            (by norm_num)
    calc p.toRat ≤ _ := h2
    _ = 100 * ((free : ℚ) / all) * (1 + 1 / 16777216) ^ 3 / (1 - 1 / 16777216) := by
        field_simp
        ring
  have hlo : 100 * ((free : ℚ) / all) * (1 - 1 / 16777216) ^ 3 / (1 + 1 / 16777216) ≤
      p.toRat := by
    have h1 : (free : ℚ) / all * ((1 - 1 / 16777216) / (1 + 1 / 16777216)) *
        (1 - 1 / 16777216) ≤ r.toRat :=
      le_trans (mul_le_mul_of_nonneg_right hXY_lo (by norm_num)) hr.1
    have h2 : (free : ℚ) / all * ((1 - 1 / 16777216) / (1 + 1 / 16777216)) *
        (1 - 1 / 16777216) * 100 * (1 - 1 / 16777216) ≤ p.toRat := by
      calc (free : ℚ) / all * ((1 - 1 / 16777216) / (1 + 1 / 16777216)) *
          (1 - 1 / 16777216) * 100 * (1 - 1 / 16777216)
          ≤ r.toRat * 100 * (1 - 1 / 16777216) := by
            refine mul_le_mul_of_nonneg_right (mul_le_mul_of_nonneg_right h1 (by norm_num))
              (by norm_num)
      _ ≤ p.toRat := hp.1
    calc 100 * ((free : ℚ) / all) * (1 - 1 / 16777216) ^ 3 / (1 + 1 / 16777216)
        = (free : ℚ) / all * ((1 - 1 / 16777216) / (1 + 1 / 16777216)) *
          (1 - 1 / 16777216) * 100 * (1 - 1 / 16777216) := by
          field_simp
          ring
    _ ≤ p.toRat := h2
  have hRv0 : (0 : ℚ) ≤ (free : ℚ) / all := by positivity
  have hRv1 : (free : ℚ) / all ≤ 1 := by
    rw [div_le_one hA0]
    exact hFA
  obtain ⟨hfin1, hfin2⟩ := freePct_final_bound ((free : ℚ) / all) p.toRat hRv0 hRv1 hup hlo
  have hexact : ⌊(100 * ((free : ℚ) / all))⌋₊ = free * 100 / all := by
    rw [show (100 * ((free : ℚ) / all)) = ((free * 100 : ℕ) : ℚ) / ((all : ℕ) : ℚ) from by
      push_cast; ring, Nat.floor_div_nat, Nat.floor_natCast]
  rw [dyadicFloor_eq_natFloor]
  constructor
  · have h3 : ⌊p.toRat⌋₊ ≤ ⌊100 * ((free : ℚ) / all) + 1⌋₊ := Nat.floor_le_floor hfin1
    rw [Nat.floor_add_one (by positivity), hexact] at h3
    exact h3
  · have h3 : ⌊100 * ((free : ℚ) / all)⌋₊ ≤ ⌊p.toRat + 1⌋₊ := Nat.floor_le_floor hfin2
    rw [Nat.floor_add_one (Dyadic.toRat_nonneg p), hexact] at h3
    exact h3

/-! ## Claim C5 — accounting identity and percentage range -/

/-- C5: every `DiskState` a successful inspection returns satisfies
`All = Used + Free` exactly — no `uint64` wraparound — given
`Free ≤ All` (the claim's `free ∈ [0, total]`), and for `0 < All` the
derived percentage satisfies `FreePercentage ≤ 100` (`0 ≤` holds since the
field is unsigned), despite the `float32` rounding in its computation. -/
theorem C5_accounting_and_percentage_invariants (path : String) (hostRes : Option String)
    (fs : StatfsResult) (d : DiskState)
    (hok : StatDisk path hostRes (some fs) = .ok d) (hfree : d.Free ≤ d.All) :
    d.All = d.Used + d.Free ∧ (0 < d.All → d.FreePercentage ≤ 100) := by
  have hd : statDiskCore path (hostRes.getD "Unknown") fs = d := by
    have h2 : (StatDisk path hostRes (some fs)) =
        .ok (statDiskCore path (hostRes.getD "Unknown") fs) := rfl
    rw [h2] at hok
    injection hok
  subst hd
  simp only [statDiskCore] at hfree ⊢
  constructor
  · have hA : fs.Blocks * fs.Bsize % U64 < U64 := Nat.mod_lt _ (by norm_num [U64])
    have hF : fs.Bavail * fs.Bsize % U64 < U64 := Nat.mod_lt _ (by norm_num [U64])
    have hU : U64 = 18446744073709551616 := by norm_num [U64]
    rw [hU] at hA hF ⊢
    rw [hU] at hfree
    omega
  · intro hall
    exact goFreePercentage_le_100 _ _ hall hfree

/-- Witness for C5 at a concrete successful inspection (100 bytes total,
50 free). -/
theorem C5_accounting_and_percentage_invariants_witness :
    (statDiskCore "/" "myhost" ⟨100, 1, 50⟩).All =
        (statDiskCore "/" "myhost" ⟨100, 1, 50⟩).Used +
          (statDiskCore "/" "myhost" ⟨100, 1, 50⟩).Free ∧
      (0 < (statDiskCore "/" "myhost" ⟨100, 1, 50⟩).All →
        (statDiskCore "/" "myhost" ⟨100, 1, 50⟩).FreePercentage ≤ 100) :=
  C5_accounting_and_percentage_invariants "/" (some "myhost") ⟨100, 1, 50⟩
    (statDiskCore "/" "myhost" ⟨100, 1, 50⟩) rfl (by decide)

/-! ## Claim C1 (amended) — the percentage is within one of the exact floor -/

/-- C1 (amended): `FreePercentage` is the `uint64` truncation of the
binary32 evaluation of `free/total*100`; for a successful inspection with
`0 < All` and `Free ≤ All` it differs from the exact
`⌊Free * 100 / All⌋` by at most one in either direction (and, per the
counterexample, the difference of one does occur, so exact equality — the
original claim — is false). -/
theorem C1_freePercentage_within_one_of_floor (path : String) (hostRes : Option String)
    (fs : StatfsResult) (d : DiskState)
    (hok : StatDisk path hostRes (some fs) = .ok d)
    (hall : 0 < d.All) (hfree : d.Free ≤ d.All) :
    d.FreePercentage ≤ d.Free * 100 / d.All + 1 ∧
      d.Free * 100 / d.All ≤ d.FreePercentage + 1 := by
  have hd : statDiskCore path (hostRes.getD "Unknown") fs = d := by
    have h2 : (StatDisk path hostRes (some fs)) =
        .ok (statDiskCore path (hostRes.getD "Unknown") fs) := rfl
    rw [h2] at hok
    injection hok
  subst hd
  simp only [statDiskCore] at hall hfree ⊢
  exact goFreePercentage_within_one _ _ hall hfree

/-- Witness for C1's amended bound at the counterexample inspection:
the computed percentage 70 and the exact floor 69 differ by exactly one. -/
theorem C1_freePercentage_within_one_of_floor_witness :
    (statDiskCore "/" "myhost" ⟨16777215, 1, 11744050⟩).FreePercentage ≤
        (statDiskCore "/" "myhost" ⟨16777215, 1, 11744050⟩).Free * 100 /
          (statDiskCore "/" "myhost" ⟨16777215, 1, 11744050⟩).All + 1 ∧
      (statDiskCore "/" "myhost" ⟨16777215, 1, 11744050⟩).Free * 100 /
          (statDiskCore "/" "myhost" ⟨16777215, 1, 11744050⟩).All ≤
        (statDiskCore "/" "myhost" ⟨16777215, 1, 11744050⟩).FreePercentage + 1 :=
  C1_freePercentage_within_one_of_floor "/" (some "myhost") ⟨16777215, 1, 11744050⟩
    (statDiskCore "/" "myhost" ⟨16777215, 1, 11744050⟩) rfl (by decide) (by decide)

theorem f32ofNat_BYTE : f32ofNat BYTE = ⟨2 ^ 23, -23⟩ := by decide

theorem f32ofNat_KILOBYTE : f32ofNat KILOBYTE = ⟨2 ^ 23, -13⟩ := by decide

theorem f32ofNat_MEGABYTE : f32ofNat MEGABYTE = ⟨2 ^ 23, -3⟩ := by decide

theorem f32ofNat_GIGABYTE : f32ofNat GIGABYTE = ⟨2 ^ 23, 7⟩ := by decide

theorem f32ofNat_TERABYTE : f32ofNat TERABYTE = ⟨2 ^ 23, 17⟩ := by decide

/-- Dividing a binary32 value by a power of two is exact. -/
theorem f32div_unit_toRat (x : Dyadic) (hm1 : 2 ^ 23 ≤ x.m) (hm2 : x.m ≤ 2 ^ 24) (eu : ℤ) :
    (f32div x ⟨2 ^ 23, eu⟩).toRat = x.toRat * 2 ^ (-(23 + eu)) := by
  rw [f32div, if_neg (by omega)]
  show (roundFracAt x.m (2 ^ 23) (x.e - eu)).toRat = x.toRat * 2 ^ (-(23 + eu))
  rcases Nat.lt_or_ge x.m (2 ^ 24) with hlt | hge
  · have hv : (x.m : ℚ) / ((2 ^ 23 : ℕ) : ℚ) = (x.m : ℚ) * 2 ^ (-23 : ℤ) := by
      rw [two_zpow_23_cast, div_eq_mul_inv, ← zpow_neg]
    have h := roundFracAt_exact x.m (2 ^ 23) x.m (by omega) (by norm_num) hm1 hlt
      (-23) (x.e - eu) hv
    rw [h, Dyadic.toRat, mul_assoc, ← two_zpow_add]
    congr 2
    omega
  · have heqm : x.m = 2 ^ 24 := by omega
    have hv : (x.m : ℚ) / ((2 ^ 23 : ℕ) : ℚ) = ((2 ^ 23 : ℕ) : ℚ) * 2 ^ (-22 : ℤ) := by
      rw [heqm, two_zpow_23_cast, two_zpow_24_cast]
      norm_num
    have h := roundFracAt_exact x.m (2 ^ 23) (2 ^ 23) (by omega) (by norm_num) le_rfl
      (by norm_num) (-22) (x.e - eu) hv
    rw [h, Dyadic.toRat, heqm, two_zpow_23_cast, two_zpow_24_cast,
      ← two_zpow_add, mul_assoc, ← two_zpow_add, ← two_zpow_add,
      show (24 : ℤ) + (x.e + -(23 + eu)) = 23 + (-22 + (x.e - eu)) from by omega]

theorem f32ofNat_ge_pow2 (bytes k : ℕ) (h : 2 ^ k ≤ bytes) :
    (2 : ℚ) ^ (k : ℤ) ≤ (f32ofNat bytes).toRat := by
  have hb1 : 1 ≤ bytes := le_trans (Nat.pos_pow_of_pos k (by norm_num)) h
  rw [f32ofNat, if_neg (by omega)]
  obtain ⟨hc1, hc2⟩ := floorLog2Frac_spec bytes 1 hb1 le_rfl
  simp only [Nat.cast_one, div_one] at hc1 hc2
  have hk : (k : ℤ) ≤ floorLog2Frac bytes 1 := by
    have h1 : (2 : ℚ) ^ (k : ℤ) < 2 ^ (floorLog2Frac bytes 1 + 1) := by
      calc (2 : ℚ) ^ (k : ℤ) = ((2 ^ k : ℕ) : ℚ) := by push_cast; rw [zpow_natCast]
      _ ≤ (bytes : ℚ) := by exact_mod_cast h
      _ < _ := hc2
    have := (zpow_lt_zpow_iff_right₀ (one_lt_two (α := ℚ))).mp h1
    omega
  calc (2 : ℚ) ^ (k : ℤ) ≤ 2 ^ floorLog2Frac bytes 1 := zpow_le_zpow_right₀ one_le_two hk
  _ ≤ _ := by simpa using le_roundFracAt_toRat bytes 1 hb1 le_rfl 0

theorem renderedTenths_ge_ten (d : Dyadic) (hm : 1 ≤ d.m) (h1 : (1 : ℚ) ≤ d.toRat) :
    10 ≤ renderedTenths d := by
  rcases d with ⟨m, e⟩
  cases e with
  | ofNat k =>
    show 10 ≤ m * 2 ^ k * 10
    have hm' : 1 ≤ m := hm
    have h2 : 0 < 2 ^ k := Nat.pos_pow_of_pos k (by norm_num)
    have h3 : 1 ≤ m * 2 ^ k := Nat.one_le_iff_ne_zero.mpr (Nat.mul_ne_zero (by omega) (by omega))
    calc 10 = 1 * 10 := by omega
    _ ≤ m * 2 ^ k * 10 := Nat.mul_le_mul_right 10 h3
  | negSucc k =>
    simp only [renderedTenths]
    have hB : 1 ≤ 2 ^ (k + 1) := Nat.pos_pow_of_pos (k + 1) (by norm_num)
    have hlo := le_rne_rat (m * 10) (2 ^ (k + 1)) hB
    have hv : ((m * 10 : ℕ) : ℚ) / ((2 ^ (k + 1) : ℕ) : ℚ) =
        10 * (Dyadic.mk m (Int.negSucc k)).toRat := by
      rw [Dyadic.toRat]
      simp only [zpow_negSucc]
      push_cast
      have hpow : ((2 : ℚ) ^ (k + 1)) ≠ 0 := by positivity
      field_simp
      ring
    rw [hv] at hlo
    have h2 : (9 : ℚ) < (rne (m * 10) (2 ^ (k + 1)) : ℚ) := by
      have h4 : (10 : ℚ) ≤ 10 * (Dyadic.mk m (Int.negSucc k)).toRat := by linarith
      linarith
    have h3 : 9 < rne (m * 10) (2 ^ (k + 1)) := by exact_mod_cast h2
    omega

/-- The common facts about `ByteSize`'s division by a unit `2 ^ k`: the
binary32 quotient equals the exact scaling of the rounded `bytes` value,
its value is at least 1, and the `%.1f` rendering shows at least `1.0`. -/
theorem byteSize_div_facts (bytes k : ℕ) (hk : 2 ^ k ≤ bytes) (eu : ℤ)
    (hu : f32ofNat (2 ^ k) = ⟨2 ^ 23, eu⟩) (heu : 23 + eu = (k : ℤ)) :
    (f32div (f32ofNat bytes) (f32ofNat (2 ^ k))).toRat =
        (f32ofNat bytes).toRat * 2 ^ (-(k : ℤ)) ∧
      (1 : ℚ) ≤ (f32div (f32ofNat bytes) (f32ofNat (2 ^ k))).toRat ∧
      10 ≤ renderedTenths (f32div (f32ofNat bytes) (f32ofNat (2 ^ k))) := by
  have hb1 : 1 ≤ bytes := le_trans (Nat.pos_pow_of_pos k (by norm_num)) hk
  have hx : f32ofNat bytes = roundFracAt bytes 1 0 := by rw [f32ofNat, if_neg (by omega)]
  have hxm : 2 ^ 23 ≤ (f32ofNat bytes).m ∧ (f32ofNat bytes).m ≤ 2 ^ 24 := by
    rw [hx]
    exact roundFracAt_m_bounds bytes 1 hb1 le_rfl 0
  have hval : (f32div (f32ofNat bytes) (f32ofNat (2 ^ k))).toRat =
      (f32ofNat bytes).toRat * 2 ^ (-(k : ℤ)) := by
    rw [hu, f32div_unit_toRat (f32ofNat bytes) hxm.1 hxm.2 eu,
      show -(23 + eu) = -(k : ℤ) from by omega]
  have hge : (1 : ℚ) ≤ (f32div (f32ofNat bytes) (f32ofNat (2 ^ k))).toRat := by
    rw [hval]
    have h1 := f32ofNat_ge_pow2 bytes k hk
    calc (1 : ℚ) = 2 ^ (k : ℤ) * 2 ^ (-(k : ℤ)) := by
          rw [← two_zpow_add, show (k : ℤ) + -(k : ℤ) = 0 from by omega]
          norm_num
    _ ≤ _ := mul_le_mul_of_nonneg_right h1 (le_of_lt (two_zpow_pos _))
  refine ⟨hval, hge, ?_⟩
  have hdm : 2 ^ 23 ≤ (f32div (f32ofNat bytes) (f32ofNat (2 ^ k))).m := by
    rw [hu, f32div, if_neg (by omega)]
    exact (roundFracAt_m_bounds (f32ofNat bytes).m (2 ^ 23) (by omega) (by norm_num) _).1
  exact renderedTenths_ge_ten _ (by omega) hge

theorem byteSize_div_facts2 (bytes u k : ℕ) (hu2 : u = 2 ^ k) (hk : u ≤ bytes) (eu : ℤ)
    (hu : f32ofNat u = ⟨2 ^ 23, eu⟩) (heu : 23 + eu = (k : ℤ)) :
    (1 : ℚ) ≤ (f32div (f32ofNat bytes) (f32ofNat u)).toRat ∧
      10 ≤ renderedTenths (f32div (f32ofNat bytes) (f32ofNat u)) := by
  subst hu2
  exact ⟨(byteSize_div_facts bytes k hk eu hu heu).2.1,
    (byteSize_div_facts bytes k hk eu hu heu).2.2⟩

/-- C3 (amended): `ByteSize 0 = "0"`, and for `bytes ≥ 1` the formatter
selects the largest unit of the ladder not exceeding `bytes`, renders the
quotient — computed in binary32 on the binary32 value of `bytes`, not
exactly — at one decimal digit, strips a trailing `".0"`, appends the unit
suffix, and the displayed value is at least `1.0`. -/
theorem C3_formatter_largest_unit_float32_render :
    ByteSize 0 = "0" ∧
    ∀ bytes : ℕ, 1 ≤ bytes →
      ∃ u suffix, (u, suffix) ∈ unitTable ∧ u ≤ bytes ∧
        (∀ kv ∈ unitTable, kv.1 ≤ bytes → kv.1 ≤ u) ∧
        ∃ q : Dyadic,
          q.toRat = (f32div (f32ofNat bytes) (f32ofNat u)).toRat ∧
          (1 : ℚ) ≤ q.toRat ∧
          10 ≤ renderedTenths q ∧
          ByteSize bytes = trimSuffixDot0 (sprintf1f q) ++ suffix := by
  refine ⟨rfl, ?_⟩
  intro bytes hb
  have hTB : TERABYTE = 2 ^ 40 := by decide
  have hGB : GIGABYTE = 2 ^ 30 := by decide
  have hMB : MEGABYTE = 2 ^ 20 := by decide
  have hKB : KILOBYTE = 2 ^ 10 := by decide
  by_cases h1 : TERABYTE ≤ bytes
  · have hf := byteSize_div_facts2 bytes TERABYTE 40 hTB h1 17 f32ofNat_TERABYTE (by norm_num)
    refine ⟨TERABYTE, "TB", by simp [unitTable], h1, ?_,
      f32div (f32ofNat bytes) (f32ofNat TERABYTE), rfl, hf.1, hf.2, ?_⟩
    · intro kv hkv hle
      simp only [unitTable, List.mem_cons, List.not_mem_nil, or_false] at hkv
      rcases hkv with rfl | rfl | rfl | rfl | rfl <;>
        norm_num [TERABYTE, GIGABYTE, MEGABYTE, KILOBYTE, BYTE]
    · simp only [ByteSize]
      rw [if_pos h1]
  · by_cases h2 : GIGABYTE ≤ bytes
    · have hf := byteSize_div_facts2 bytes GIGABYTE 30 hGB h2 7 f32ofNat_GIGABYTE (by norm_num)
      refine ⟨GIGABYTE, "GB", by simp [unitTable], h2, ?_,
        f32div (f32ofNat bytes) (f32ofNat GIGABYTE), rfl, hf.1, hf.2, ?_⟩
      · intro kv hkv hle
        simp only [unitTable, List.mem_cons, List.not_mem_nil, or_false] at hkv
        rcases hkv with rfl | rfl | rfl | rfl | rfl
        · exact absurd hle h1
        · norm_num
        · norm_num [GIGABYTE, MEGABYTE, KILOBYTE, BYTE]
        · norm_num [GIGABYTE, MEGABYTE, KILOBYTE, BYTE]
        · norm_num [GIGABYTE, MEGABYTE, KILOBYTE, BYTE]
      · simp only [ByteSize]
        rw [if_neg h1, if_pos h2]
    · by_cases h3 : MEGABYTE ≤ bytes
      · have hf := byteSize_div_facts2 bytes MEGABYTE 20 hMB h3 (-3) f32ofNat_MEGABYTE (by norm_num)
        refine ⟨MEGABYTE, "MB", by simp [unitTable], h3, ?_,
          f32div (f32ofNat bytes) (f32ofNat MEGABYTE), rfl, hf.1, hf.2, ?_⟩
        · intro kv hkv hle
          simp only [unitTable, List.mem_cons, List.not_mem_nil, or_false] at hkv
          rcases hkv with rfl | rfl | rfl | rfl | rfl
          · exact absurd hle h1
          · exact absurd hle h2
          · norm_num
          · norm_num [MEGABYTE, KILOBYTE, BYTE]
          · norm_num [MEGABYTE, KILOBYTE, BYTE]
        · simp only [ByteSize]
          rw [if_neg h1, if_neg h2, if_pos h3]
      · by_cases h4 : KILOBYTE ≤ bytes
        · have hf := byteSize_div_facts2 bytes KILOBYTE 10 hKB h4 (-13) f32ofNat_KILOBYTE (by norm_num)
          refine ⟨KILOBYTE, "KB", by simp [unitTable], h4, ?_,
            f32div (f32ofNat bytes) (f32ofNat KILOBYTE), rfl, hf.1, hf.2, ?_⟩
          · intro kv hkv hle
            simp only [unitTable, List.mem_cons, List.not_mem_nil, or_false] at hkv
            rcases hkv with rfl | rfl | rfl | rfl | rfl
            · exact absurd hle h1
            · exact absurd hle h2
            · exact absurd hle h3
            · norm_num
            · norm_num [KILOBYTE, BYTE]
          · simp only [ByteSize]
            rw [if_neg h1, if_neg h2, if_neg h3, if_pos h4]
        · have h5 : BYTE ≤ bytes := by simpa [BYTE] using hb
          have hxm : 2 ^ 23 ≤ (f32ofNat bytes).m ∧ (f32ofNat bytes).m ≤ 2 ^ 24 := by
            rw [f32ofNat, if_neg (by omega)]
            exact roundFracAt_m_bounds bytes 1 hb le_rfl 0
          have hq1 : (1 : ℚ) ≤ (f32ofNat bytes).toRat := by
            simpa using f32ofNat_ge_pow2 bytes 0 (by simpa using hb)
          refine ⟨BYTE, "B", by simp [unitTable], h5, ?_,
            f32ofNat bytes, ?_, hq1, ?_, ?_⟩
          · intro kv hkv hle
            simp only [unitTable, List.mem_cons, List.not_mem_nil, or_false] at hkv
            rcases hkv with rfl | rfl | rfl | rfl | rfl
            · exact absurd hle h1
            · exact absurd hle h2
            · exact absurd hle h3
            · exact absurd hle h4
            · norm_num
          · rw [f32ofNat_BYTE, f32div_unit_toRat (f32ofNat bytes) hxm.1 hxm.2 (-23)]
            norm_num
          · exact renderedTenths_ge_ten _ (le_trans (by norm_num) hxm.1) hq1
          · simp only [ByteSize]
            rw [if_neg h1, if_neg h2, if_neg h3, if_neg h4, if_pos h5]

theorem C3_formatter_largest_unit_float32_render_witness :
    1 ≤ (1536 : ℕ) ∧
    ∃ u suffix, (u, suffix) ∈ unitTable ∧ u ≤ 1536 ∧
      (∀ kv ∈ unitTable, kv.1 ≤ 1536 → kv.1 ≤ u) ∧
      ∃ q : Dyadic,
        q.toRat = (f32div (f32ofNat 1536) (f32ofNat u)).toRat ∧
        (1 : ℚ) ≤ q.toRat ∧
        10 ≤ renderedTenths q ∧
        ByteSize 1536 = trimSuffixDot0 (sprintf1f q) ++ suffix :=
  ⟨by decide, C3_formatter_largest_unit_float32_render.2 1536 (by decide)⟩
